import Mathlib

/-!
Shallow embedding of the context-building core of the UChicago advising
chatbot (`chatbot.py`): code normalization, keyword indexing, program
relevance ranking, informal course-reference resolution, prerequisite
checking, and context assembly.  Strings are modelled as `List Char`
(`Str`); Python dicts as insertion-ordered association lists; Python sets
as insertion-ordered duplicate-free lists (Python set iteration order is
deterministic within a process but hash-dependent; no claim below depends
on the particular order).  Regular-expression scans (`re.finditer`,
`re.findall`) are modelled by explicit left-to-right scanners that realize
the backtracking semantics of the concrete patterns in the source.  The
embedding covers the ASCII fragment of Python's Unicode-aware `\b`, `\w`,
`lower()` and `upper()`; all catalog codes and tokens involved in the
claims are ASCII.
-/

namespace Advisor

/-- Strings modelled as lists of characters. -/
abbrev Str := List Char

/-- Convert a Lean string literal to the model representation. -/
def s (x : String) : Str := x.data

/-! ### Character classes -/

/-- Python `str.isspace()` / whitespace used by `str.strip()` and `str.split()`
(ASCII and Latin-1 portion plus the common Unicode space code points). -/
def isPyWS (c : Char) : Bool :=
  c = ' ' || c = '\t' || c = '\n' || c = '\r' || c = '\u000B' || c = '\u000C' ||
  c = '\u001C' || c = '\u001D' || c = '\u001E' || c = '\u001F' || c = '\u0085' ||
  c = '\u00A0' || c = '\u1680' || ('\u2000' ≤ c && c ≤ '\u200A') ||
  c = '\u2028' || c = '\u2029' || c = '\u202F' || c = '\u205F' || c = '\u3000'

/-- Characters matched by the regex class `\s`. -/
def isReWS (c : Char) : Bool :=
  c = ' ' || c = '\t' || c = '\n' || c = '\r' || c = '\u000B' || c = '\u000C' ||
  c = '\u0085' || c = '\u00A0' || c = '\u1680' || ('\u2000' ≤ c && c ≤ '\u200A') ||
  c = '\u2028' || c = '\u2029' || c = '\u202F' || c = '\u205F' || c = '\u3000'

/-- Characters matched by the regex class `\w` (word characters), used by `\b`. -/
def isWordChar (c : Char) : Bool := c.isAlphanum || c = '_'

/-- ASCII letters, the regex class `[a-zA-Z]`. -/
def isLetter (c : Char) : Bool := c.isAlpha

/-- ASCII uppercase letters, the regex class `[A-Z]`. -/
def isUpperLetter (c : Char) : Bool := 'A' ≤ c && c ≤ 'Z'

/-- ASCII digits, the regex class `\d`. -/
def isDigitChar (c : Char) : Bool := c.isDigit

/-! ### Generic string helpers -/

/-- Python `str.lower()` (ASCII fragment). -/
def lowerStr (x : Str) : Str := x.map Char.toLower

/-- Python `str.upper()` (ASCII fragment). -/
def upperStr (x : Str) : Str := x.map Char.toUpper

/-- Drop whitespace from the end of a list. -/
def dropEndWS (l : Str) : Str := (l.reverse.dropWhile isPyWS).reverse

/-- Python `str.strip()`: drop leading and trailing whitespace. -/
def pyStrip (l : Str) : Str := dropEndWS (l.dropWhile isPyWS)

/-- Python `str.rstrip(chars)`: drop the given characters from the end. -/
def pyRstrip (chars : Str) (l : Str) : Str :=
  (l.reverse.dropWhile (fun c => chars.contains c)).reverse

/-- Python substring test `needle in hay`. -/
def containsSub (needle hay : Str) : Bool :=
  match hay with
  | [] => needle.isEmpty
  | _ :: t => needle.isPrefixOf hay || containsSub needle t

/-- Auxiliary state machine for `splitWS`: accumulate the current word. -/
def splitWSAux : Str → Str → List Str
  | cur, [] => if cur = [] then [] else [cur.reverse]
  | cur, c :: rest =>
    if isPyWS c then
      if cur = [] then splitWSAux [] rest else cur.reverse :: splitWSAux [] rest
    else
      splitWSAux (c :: cur) rest

/-- Python `str.split()` with no argument: split on whitespace runs,
discarding empty pieces. -/
def splitWS (l : Str) : List Str := splitWSAux [] l

/-- Python `sep.join(parts)`. -/
def joinSep (sep : Str) : List Str → Str
  | [] => []
  | [x] => x
  | x :: rest => x ++ sep ++ joinSep sep rest

/-- Concatenation of a list of strings (`"".join(parts)`). -/
def concatStr (parts : List Str) : Str := parts.foldr (· ++ ·) []

/-- Stable insertion into a list sorted by the total preorder `le`. -/
def insSorted (le : α → α → Bool) (x : α) : List α → List α
  | [] => [x]
  | y :: ys => if le x y then x :: y :: ys else y :: insSorted le x ys

/-- Stable sort by the total preorder `le` (Python `sorted` / `list.sort` are
stable; this realizes the same element order for the comparators used here). -/
def pysort (le : α → α → Bool) (l : List α) : List α := l.foldr (insSorted le) []

/-- Lexicographic comparison of strings by code point (Python `<=` on `str`). -/
def lexLe : Str → Str → Bool
  | [], _ => true
  | _ :: _, [] => false
  | a :: x, b :: y => if a = b then lexLe x y else decide (a < b)

/-- Python `sorted()` on a collection of strings. -/
def sortStrs (l : List Str) : List Str := pysort lexLe l

/-- First binding of a key in an association list (Python dict lookup). -/
def assocFind (m : List (Str × α)) (k : Str) : Option α :=
  match m with
  | [] => none
  | (k2, v) :: rest => if k2 = k then some v else assocFind rest k

/-- Python dict assignment `d[k] = v`: overwrite an existing binding in place,
else append a new binding. -/
def dictInsert (m : List (Str × α)) (k : Str) (v : α) : List (Str × α) :=
  match m with
  | [] => [(k, v)]
  | (k2, w) :: rest =>
    if k2 = k then (k2, v) :: rest else (k2, w) :: dictInsert rest k v

/-- Python `set.add`: append if absent (insertion-ordered set model). -/
def setAdd (l : List Str) (x : Str) : List Str :=
  if l.contains x then l else l ++ [x]

/-! ### `_normalize_code` (chatbot.py lines 125-127) -/

/-- `_normalize_code`: replace non-breaking spaces by regular spaces, then
strip surrounding whitespace. -/
def normalize_code (code : Str) : Str :=
  pyStrip (code.map (fun c => if c = '\u00A0' then ' ' else c))

/-! ### Idempotence facts about strip/normalize (for claim C6) -/

theorem dropWhile_dropWhile (p : Char → Bool) (l : Str) :
    (l.dropWhile p).dropWhile p = l.dropWhile p := by
  induction l with
  | nil => rfl
  | cons x xs ih =>
    by_cases h : p x
    · simp [List.dropWhile_cons, h, ih]
    · simp [List.dropWhile_cons, h]

theorem dropWhile_eq_self_of_prefix (p : Char → Bool) {x m : Str}
    (hpre : x <+: m) (hm : m.dropWhile p = m) : x.dropWhile p = x := by
  cases x with
  | nil => rfl
  | cons a t =>
    obtain ⟨r, hr⟩ := hpre
    subst hr
    simp only [List.cons_append] at hm
    by_cases h : p a
    · exfalso
      rw [List.dropWhile_cons, if_pos h] at hm
      have hle : (List.dropWhile p (t ++ r)).length ≤ (t ++ r).length :=
        (List.dropWhile_sublist _).length_le
      have hlen := congrArg List.length hm
      simp only [List.length_cons] at hlen
      omega
    · rw [List.dropWhile_cons, if_neg h]

theorem dropEndWS_prefix_self (m : Str) : dropEndWS m <+: m := by
  have h1 : m.reverse.dropWhile isPyWS <:+ m.reverse := List.dropWhile_suffix _
  have h2 : (m.reverse.dropWhile isPyWS).reverse <+: m.reverse.reverse :=
    List.reverse_prefix.mpr (by simpa using h1)
  simpa [dropEndWS] using h2

theorem dropEndWS_dropEndWS (m : Str) : dropEndWS (dropEndWS m) = dropEndWS m := by
  simp [dropEndWS, dropWhile_dropWhile]

theorem pyStrip_pyStrip (l : Str) : pyStrip (pyStrip l) = pyStrip l := by
  unfold pyStrip
  have h1 : (l.dropWhile isPyWS).dropWhile isPyWS = l.dropWhile isPyWS :=
    dropWhile_dropWhile _ _
  have h2 : (dropEndWS (l.dropWhile isPyWS)).dropWhile isPyWS
      = dropEndWS (l.dropWhile isPyWS) :=
    dropWhile_eq_self_of_prefix _ (dropEndWS_prefix_self _) h1
  rw [h2, dropEndWS_dropEndWS]

theorem mem_pyStrip {c : Char} {l : Str} (h : c ∈ pyStrip l) : c ∈ l := by
  have h1 : c ∈ l.dropWhile isPyWS := (dropEndWS_prefix_self _).subset h
  exact (List.dropWhile_suffix _).subset h1

theorem map_nbsp_eq_self_of_not_mem {l : Str} (h : '\u00A0' ∉ l) :
    l.map (fun c => if c = '\u00A0' then ' ' else c) = l := by
  induction l with
  | nil => rfl
  | cons x xs ih =>
    simp only [List.mem_cons, not_or] at h
    have hx : ¬ (x = ' ') := fun he => h.1 he.symm
    simp [List.map_cons, hx, ih h.2]

theorem not_mem_nbsp_map (l : Str) :
    '\u00A0' ∉ l.map (fun c => if c = '\u00A0' then ' ' else c) := by
  intro h
  simp only [List.mem_map] at h
  obtain ⟨a, _, ha⟩ := h
  by_cases he : a = '\u00A0' <;> simp [he] at ha

/-- Claim C6: `_normalize_code` is idempotent — normalizing an already
normalized course code string changes nothing. -/
theorem normalize_code_idempotent (c : Str) :
    normalize_code (normalize_code c) = normalize_code c := by
  unfold normalize_code
  have hno : '\u00A0' ∉ pyStrip (c.map (fun c => if c = '\u00A0' then ' ' else c)) :=
    fun h => not_mem_nbsp_map c (mem_pyStrip h)
  rw [map_nbsp_eq_self_of_not_mem hno, pyStrip_pyStrip]

/-! ### Data model (chatbot.py `_load_data` JSON shapes, spec section 3) -/

/-- Detail fields of a catalog course entry (`details` sub-dict; absent keys
are read with default `""`, so they are modelled as plain strings). -/
structure CourseDetails where
  prerequisites : Str
  terms_offered : Str
  instructors : Str
  deriving DecidableEq

/-- A course inventory entry.  `units` is `none` when the JSON key is absent
(`c.get('units', '?')` distinguishes a missing key). -/
structure Course where
  name : Str
  description : Str
  units : Option Str
  details : CourseDetails
  deriving DecidableEq

/-- One course line inside a requirement section. -/
structure CourseRef where
  code : Str
  title : Str
  units : Str
  or_alternative : Bool
  elective_option : Bool
  deriving DecidableEq

/-- One requirement section of a program. -/
structure Section where
  header : Str
  courses : List CourseRef
  deriving DecidableEq

/-- A program record. -/
structure Program where
  name : Str
  description : Str
  requirements : List Section
  deriving DecidableEq

/-- The course inventory `self.courses` (insertion-ordered dict). -/
abbrev Courses := List (Str × Course)

/-- The program map `self.programs` (insertion-ordered dict). -/
abbrev Programs := List (Str × Program)

/-! ### Regex scan for `_check_prerequisites` -/

/-- `\b` at the break between the consumed text and `l`: the next character
must not be a word character (or the string must end). -/
def boundaryOk (l : Str) : Bool :=
  match l with
  | [] => true
  | c :: _ => !isWordChar c

/-- One attempt of the pattern `([A-Z]{2,5})\s+(\d{5})\b` at the head of
`l` (the leading `\b` is checked by the caller).  Backtracking collapses to
run conditions: the maximal `[A-Z]` run must have length 2-5, the maximal
`\s` run length at least 1, the maximal digit run exactly 5, and the match
must end at a word boundary.  Returns (letters, digits, rest). -/
def tryPrereqMatch (l : Str) : Option (Str × Str × Str) :=
  let letters := l.takeWhile isUpperLetter
  if 2 ≤ letters.length && letters.length ≤ 5 then
    let r1 := l.drop letters.length
    let ws := r1.takeWhile isReWS
    if 1 ≤ ws.length then
      let r2 := r1.drop ws.length
      let digits := r2.takeWhile isDigitChar
      if digits.length = 5 then
        let r3 := r2.drop 5
        if boundaryOk r3 then some (letters, digits, r3) else none
      else none
    else none
  else none

/-- Left-to-right non-overlapping scan of `re.finditer` for the prerequisite
code pattern, collecting `f"{m.group(1)} {m.group(2)}"` strings.  `prevW`
records whether the previous character was a word character (for `\b`);
`fuel` bounds the recursion and is initialised to the text length. -/
def scanPrereqCodes : Nat → Bool → Str → List Str
  | 0, _, _ => []
  | _ + 1, _, [] => []
  | fuel + 1, prevW, c :: cs =>
    if !prevW then
      match tryPrereqMatch (c :: cs) with
      | some (letters, digits, rest) =>
          (letters ++ [' '] ++ digits) :: scanPrereqCodes fuel true rest
      | none => scanPrereqCodes fuel (isWordChar c) cs
    else scanPrereqCodes fuel (isWordChar c) cs

/-- All prerequisite course codes extracted from a prerequisite text, as the
set `prereq_codes` (modelled as an insertion-ordered duplicate-free list). -/
def extractPrereqCodes (text : Str) : List Str :=
  (scanPrereqCodes text.length false text).foldl setAdd []

/-- First suffix of `hay` starting at the first occurrence of `needle`
(Python `hay[hay.index(needle):]`); `[]` when there is no occurrence. -/
def sliceFrom (needle hay : Str) : Str :=
  match hay with
  | [] => []
  | _ :: t => if needle.isPrefixOf hay then hay else sliceFrom needle t

/-! ### `_check_prerequisites` (chatbot.py lines 266-317) -/

/-- Prerequisite text of a course entry after the fallback scan of the
`terms_offered` and `instructors` fields for a `"Prerequisite"` marker. -/
def effectivePrereqText (course : Course) : Str :=
  let d := course.details
  if d.prerequisites = [] then
    if containsSub (s "Prerequisite") d.terms_offered then
      sliceFrom (s "Prerequisite") d.terms_offered
    else if containsSub (s "Prerequisite") d.instructors then
      sliceFrom (s "Prerequisite") d.instructors
    else []
  else d.prerequisites

/-- `_check_prerequisites`: returns `(satisfied, explanation)`. -/
def check_prerequisites (courses : Courses) (code : Str)
    (completed_set in_progress_set : List Str) : Bool × Str :=
  match assocFind courses code with
  | none => (true, [])
  | some course =>
    let prereq_text := effectivePrereqText course
    if prereq_text = [] then (true, [])
    else
      let prereq_codes := extractPrereqCodes prereq_text
      if prereq_codes = [] then (true, s "Prerequisites: " ++ prereq_text)
      else
        let missing := prereq_codes.filter
          (fun pc => !completed_set.contains pc && !in_progress_set.contains pc)
        let in_prog := prereq_codes.filter
          (fun pc => !completed_set.contains pc && in_progress_set.contains pc)
        if missing = [] && in_prog = [] then (true, [])
        else
          let parts :=
            (if missing = [] then [] else
              [s "Not completed: " ++ joinSep (s ", ") (sortStrs missing)]) ++
            (if in_prog = [] then [] else
              [s "In-progress (not yet satisfied): " ++
                joinSep (s ", ") (sortStrs in_prog)])
          (false, s "Prereq issue for " ++ code ++ s ": " ++ joinSep (s "; ") parts)

/-! ### `DEPT_ABBREVS` (chatbot.py lines 91-122) -/

/-- Static mapping from informal department abbreviations to official codes. -/
def DEPT_ABBREVS : List (Str × Str) := [
  (s "cs", s "CMSC"), (s "cmsc", s "CMSC"), (s "compsci", s "CMSC"),
  (s "math", s "MATH"), (s "stat", s "STAT"), (s "stats", s "STAT"),
  (s "econ", s "ECON"), (s "phys", s "PHYS"), (s "chem", s "CHEM"),
  (s "bio", s "BIOS"), (s "bios", s "BIOS"), (s "phil", s "PHIL"),
  (s "psych", s "PSYC"), (s "polisci", s "PLSC"), (s "poli", s "PLSC"),
  (s "soc", s "SOCI"), (s "hist", s "HIST"), (s "engl", s "ENGL"),
  (s "english", s "ENGL"), (s "art", s "ARTV"), (s "artv", s "ARTV"),
  (s "musi", s "MUSI"), (s "music", s "MUSI"), (s "ling", s "LING"),
  (s "anth", s "ANTH"), (s "sosc", s "SOSC"), (s "huma", s "HUMA"),
  (s "taps", s "TAPS"), (s "caam", s "CAAM"), (s "turk", s "NEHC")]

/-! ### Regex scan for `_resolve_course_reference` (chatbot.py lines 224-249) -/

/-- Greedy `(\d{2,5})\b` at the head of `r`: the maximal digit run must have
length 2-5 and be followed by a word boundary.  Returns (digits, rest). -/
def tryRefDigits (r : Str) : Option (Str × Str) :=
  let digits := r.takeWhile isDigitChar
  if 2 ≤ digits.length && digits.length ≤ 5 then
    let rest := r.drop digits.length
    if boundaryOk rest then some (digits, rest) else none
  else none

/-- One attempt of `([a-zA-Z]{2,6})[\s-]?(\d{2,5})\b` at the head of `l`
(the leading `\b` is checked by the caller): the maximal letter run must have
length 2-6; an optional single separator is consumed only when digits follow
it (backtracking to zero separators cannot succeed because the separator
character is not a digit).  Returns (letters, separator, digits, rest). -/
def tryRefMatch (l : Str) : Option (Str × Str × Str × Str) :=
  let letters := l.takeWhile isLetter
  if 2 ≤ letters.length && letters.length ≤ 6 then
    match l.drop letters.length with
    | [] => none
    | c :: r2 =>
      if isReWS c || c = '-' then
        match tryRefDigits r2 with
        | some (digits, rest) => some (letters, [c], digits, rest)
        | none => none
      else
        match tryRefDigits (c :: r2) with
        | some (digits, rest) => some (letters, [], digits, rest)
        | none => none
  else none

/-- Left-to-right non-overlapping `re.finditer` scan for the informal course
reference pattern; collects (letters, separator, digits) per match. -/
def scanRefMatches : Nat → Bool → Str → List (Str × Str × Str)
  | 0, _, _ => []
  | _ + 1, _, [] => []
  | fuel + 1, prevW, c :: cs =>
    if !prevW then
      match tryRefMatch (c :: cs) with
      | some (letters, sep, digits, rest) =>
          (letters, sep, digits) :: scanRefMatches fuel true rest
      | none => scanRefMatches fuel (isWordChar c) cs
    else scanRefMatches fuel (isWordChar c) cs

/-- The set `{c.split()[0] for c in self.courses}` of known department codes
(first whitespace token of every inventory key). -/
def deptSet (courses : Courses) : List Str :=
  courses.filterMap (fun kc => (splitWS kc.1).head?)

/-- Python `str.ljust(width, fill)`. -/
def pyLjust (width : Nat) (fill : Char) (x : Str) : Str :=
  x ++ List.replicate (width - x.length) fill

/-- The candidate canonical code `f"{official_dept} {padded}"` built from a
match `(letters, sep, digits)`: the lowercased letters mapped through
`DEPT_ABBREVS` (defaulting to their uppercase form), a space, and the digits
right-padded with zeros to five (both source branches right-pad). -/
def resolveCandidate (m : Str × Str × Str) : Str :=
  let dept_raw := lowerStr m.1
  let official_dept := (assocFind DEPT_ABBREVS dept_raw).getD (upperStr dept_raw)
  let padded :=
    if m.2.2.length ≤ 3 then m.2.2 ++ List.replicate (5 - m.2.2.length) '0'
    else pyLjust 5 '0' m.2.2
  official_dept ++ [' '] ++ padded

/-- The body of the `_resolve_course_reference` match loop: skip already
canonical references (five digits and a known department), otherwise record
the candidate when it exists in the inventory. -/
def resolveStep (courses : Courses) (resolved : List (Str × Str))
    (m : Str × Str × Str) : List (Str × Str) :=
  if m.2.2.length = 5 && (deptSet courses).contains (upperStr (lowerStr m.1)) then
    resolved
  else if (courses.map Prod.fst).contains (resolveCandidate m) then
    dictInsert resolved (m.1 ++ m.2.1 ++ m.2.2) (resolveCandidate m)
  else resolved

/-- `_resolve_course_reference`: resolve informal course code references to
official catalog codes; returns the dict `{original: candidate}`. -/
def resolve_course_reference (courses : Courses) (message : Str) :
    List (Str × Str) :=
  (scanRefMatches message.length false message).foldl (resolveStep courses) []

/-! ### `_search_courses_by_name` (chatbot.py lines 251-264) -/

/-- Body of the search loop: substring match of the lowered query against
lowered course names, stopping once `limit` results are collected. -/
def searchByNameAux (query_lower : Str) : Nat → Courses → List (Str × Str)
  | _, [] => []
  | limit, (code, course) :: rest =>
    if containsSub query_lower (lowerStr course.name) then
      if limit ≤ 1 then [(code, course.name)]
      else (code, course.name) :: searchByNameAux query_lower (limit - 1) rest
    else searchByNameAux query_lower limit rest

/-- `_search_courses_by_name`. -/
def search_courses_by_name (courses : Courses) (query : Str) (limit : Nat) :
    List (Str × Str) :=
  searchByNameAux (lowerStr query) limit courses

/-! ### Keyword index (`_load_data`, chatbot.py lines 152-181) -/

/-- The static curated synonym table `abbrevs` (values are Python sets,
modelled in their written order). -/
def static_abbrevs : List (Str × List Str) := [
  (s "computerscience", [s "cs", s "computer", s "compsci", s "cmsc"]),
  (s "economics", [s "econ"]),
  (s "mathematics", [s "math", s "maths"]),
  (s "physics", [s "phys"]),
  (s "statistics", [s "stats", s "stat"]),
  (s "biologicalsciences", [s "bio", s "biology"]),
  (s "chemistry", [s "chem"]),
  (s "english", [s "english", s "engl"]),
  (s "history", [s "hist"]),
  (s "philosophy", [s "phil"]),
  (s "politicalscience", [s "polisci", s "poli", s "political"]),
  (s "psychology", [s "psych"]),
  (s "sociology", [s "soc", s "socio"]),
  (s "caam", [s "caam", s "computational", s "applied"]),
  (s "visualarts", [s "art", s "arts", s "artv", s "visual"])]

/-- The fixed stop-word set. -/
def stopWords : List Str := [s "and", s "of", s "the", s "in"]

/-- Keyword set of one program: lowercased name tokens, the lowercased slug,
the curated synonyms for the slug, minus stop words. -/
def programKeywords (slug : Str) (prog : Program) : List Str :=
  let k1 := (splitWS (lowerStr prog.name)).foldl setAdd []
  let k2 := setAdd k1 (lowerStr slug)
  let k3 :=
    match assocFind static_abbrevs slug with
    | some ab => ab.foldl setAdd k2
    | none => k2
  k3.filter (fun kw => !(stopWords.contains kw))

/-- `self._program_keywords`: slug → keyword set, built from the program map. -/
def buildKeywordIndex (programs : Programs) : List (Str × List Str) :=
  programs.map (fun sp => (sp.1, programKeywords sp.1 sp.2))

/-! ### `_find_relevant_programs` (chatbot.py lines 183-214) -/

/-- Combined lowercased word set of the last four user turns of the
conversation history (entries are (role, content) pairs). -/
def userHistWords (history : List (Str × Str)) : List Str :=
  let user_msgs := (history.filter (fun m => m.1 = s "user")).map Prod.snd
  let last4 := user_msgs.drop (user_msgs.length - 4)
  last4.foldl (fun acc m => (splitWS (lowerStr m)).foldl setAdd acc) []

/-- Relevance score of one program keyword set against the message and the
history word set: +2 per keyword that is a message word or a substring of
the lowercased message, else +1 per keyword in the history word set. -/
def scoreProgram (kws : List Str) (msg_words : List Str) (msg_lower : Str)
    (history_words : List Str) : Nat :=
  kws.foldl
    (fun sc kw =>
      if msg_words.contains kw || containsSub kw msg_lower then sc + 2
      else if history_words.contains kw then sc + 1
      else sc)
    0

/-- `_find_relevant_programs`: keyword-scored shortlist of at most 8 program
slugs, sorted by descending score (stable, preserving index order on ties). -/
def find_relevant_programs (index : List (Str × List Str)) (message : Str)
    (history : List (Str × Str)) : List Str :=
  let msg_lower := lowerStr message
  let msg_words := splitWS msg_lower
  let history_words := userHistWords history
  let scored := index.filterMap (fun sk =>
    let sc := scoreProgram sk.2 msg_words msg_lower history_words
    if 0 < sc then some (sk.1, sc) else none)
  let ranked := pysort (fun a b => decide (b.2 ≤ a.2)) scored
  (ranked.take 8).map Prod.fst

/-! ### Name-query extraction (`_build_context`, chatbot.py lines 460-467) -/

/-- Scan of `re.findall(r'"([^"]+)"', message)`: non-overlapping quoted
spans of at least one non-quote character. -/
def findQuoted : Nat → Str → List Str
  | 0, _ => []
  | _ + 1, [] => []
  | fuel + 1, c :: cs =>
    if c = '"' then
      let grp := cs.takeWhile (fun x => x ≠ '"')
      if grp = [] then findQuoted fuel cs
      else
        match cs.drop grp.length with
        | '"' :: rest2 => grp :: findQuoted fuel rest2
        | _ => findQuoted fuel cs
    else findQuoted fuel cs

/-- The cue-word alternation `(?:like|called|named|about|such as)` (matched
case-insensitively; the alternatives have pairwise distinct first letters,
so at most one can apply at a given position). -/
def cueWords : List Str :=
  [s "like", s "called", s "named", s "about", s "such as"]

/-- One attempt of the cue pattern
`\b(?:like|called|named|about|such as)\s+["\']?([a-zA-Z][a-zA-Z\s]{2,30})["\']?`
at the head of `l` (leading `\b` checked by the caller): cue word, one or
more whitespace characters, an optional quote, then the captured group of a
letter followed by 2-30 letters/whitespace, then an optional closing quote.
Returns (group, rest). -/
def tryCue (l : Str) : Option (Str × Str) :=
  match cueWords.find? (fun cue => lowerStr (l.take cue.length) = cue) with
  | none => none
  | some cue =>
    let r1 := l.drop cue.length
    let ws := r1.takeWhile isReWS
    if ws.length = 0 then none
    else
      let r2 := r1.drop ws.length
      let r3 := match r2 with
        | c :: rest => if (c = '"' || c = '\'') && (match rest with
            | d :: _ => isLetter d
            | [] => false) then rest else r2
        | [] => r2
      match r3 with
      | [] => none
      | c :: r4 =>
        if isLetter c then
          let grp := (r4.takeWhile (fun x => isLetter x || isReWS x)).take 30
          if 2 ≤ grp.length then
            let r5 := r4.drop grp.length
            let r6 := match r5 with
              | q2 :: r7 => if q2 = '"' || q2 = '\'' then r7 else r5
              | [] => r5
            some (c :: grp, r6)
          else none
        else none

/-- Left-to-right non-overlapping `re.finditer` scan for the cue pattern. -/
def cueScan : Nat → Bool → Str → List Str
  | 0, _, _ => []
  | _ + 1, _, [] => []
  | fuel + 1, prevW, c :: cs =>
    if !prevW then
      match tryCue (c :: cs) with
      | some (grp, rest) => grp :: cueScan fuel true rest
      | none => cueScan fuel (isWordChar c) cs
    else cueScan fuel (isWordChar c) cs

/-- Candidate phrases after cue words: stripped, right-stripped of `.,?!`,
kept when longer than two characters. -/
def cueCandidates (message : Str) : List Str :=
  (cueScan message.length false message).filterMap (fun grp =>
    let candidate := pyRstrip (s ".,?!") (pyStrip grp)
    if candidate ≠ [] && 2 < candidate.length then some candidate else none)

/-! ### `_build_context` (chatbot.py lines 319-483) -/

/-- One requirement course line
`f"{prefix}{code}: {title}{units}{status_marker}\n"`. -/
def courseLine (completed_set in_progress_set : List Str) (course : CourseRef) :
    Str :=
  let pre := if course.or_alternative then s "  OR "
    else if course.elective_option then s "  - " else []
  let units := if course.units = [] then [] else s " (" ++ course.units ++ s ")"
  let code := normalize_code course.code
  let status := if completed_set.contains code then s " [COMPLETED]"
    else if in_progress_set.contains code then s " [IN PROGRESS]" else []
  pre ++ code ++ s ": " ++ course.title ++ units ++ status ++ s "\n"

/-- One requirement section: optional bold header plus its course lines. -/
def sectionPart (completed_set in_progress_set : List Str) (sec : Section) :
    Str :=
  (if sec.header = [] then [] else s "\n**" ++ sec.header ++ s "**\n") ++
  concatStr (sec.courses.map (courseLine completed_set in_progress_set))

/-- The program block: name header, first 500 description characters, and
requirement sections. -/
def programPart (completed_set in_progress_set : List Str) (prog : Program) :
    Str :=
  s "\n\n## " ++ prog.name ++ s "\n" ++
  (if prog.description = [] then [] else prog.description.take 500 ++ s "\n") ++
  (if prog.requirements = [] then []
   else s "\n### Requirements:\n" ++
     concatStr (prog.requirements.map (sectionPart completed_set in_progress_set)))

/-- The normalized, non-empty requirement course codes of a program, in
emission order (the codes tracked into `mentioned_codes`/`code_to_programs`;
a program with no requirement sections tracks nothing). -/
def progReqCodes (prog : Program) : List Str :=
  (prog.requirements.foldr (fun sec acc => sec.courses ++ acc) []).foldr
    (fun c acc =>
      let code := normalize_code c.code
      if code = [] then acc else code :: acc) []

/-- `code_to_programs[code].add(name)` with on-demand entry creation. -/
def c2pAdd (m : List (Str × List Str)) (code nm : Str) : List (Str × List Str) :=
  match m with
  | [] => [(code, [nm])]
  | (k, names) :: rest =>
    if k = code then (k, setAdd names nm) :: rest
    else (k, names) :: c2pAdd rest code nm

/-- The ranked-program loop of `_build_context`: renders each program block
and accumulates `mentioned_codes` and `code_to_programs`.  An unknown slug
makes the unguarded dict lookup `self.programs[slug]` raise, modelled as
`none`. -/
def processSlugs (programs : Programs) (completed_set in_progress_set : List Str) :
    List Str → List Str → List Str → List (Str × List Str) →
    Option (List Str × List Str × List (Str × List Str))
  | [], parts, mentioned, c2p => some (parts, mentioned, c2p)
  | slug :: rest, parts, mentioned, c2p =>
    match assocFind programs slug with
    | none => none
    | some prog =>
      let part := programPart completed_set in_progress_set prog
      let codes := progReqCodes prog
      let mentioned2 := codes.foldl setAdd mentioned
      let c2p2 := codes.foldl (fun m code => c2pAdd m code prog.name) c2p
      processSlugs programs completed_set in_progress_set rest
        (parts ++ [part]) mentioned2 c2p2

/-- One line of the Cross-Program Overlap block. -/
def overlapLine (courses : Courses) (completed_set in_progress_set : List Str)
    (code : Str) (names : List Str) : Str :=
  let nm := match assocFind courses code with
    | some c => c.name
    | none => []
  let status := if completed_set.contains code then s " [COMPLETED]"
    else if in_progress_set.contains code then s " [IN PROGRESS]" else []
  s "- **" ++ code ++ s "**: " ++ nm ++ s " → counts for: " ++
    joinSep (s ", ") (sortStrs names) ++ status ++ s "\n"

/-- The Cross-Program Overlap block: emitted when at least two programs were
ranked and some code is shared by at least two program names.  Iterating
`sorted(overlaps.keys())` with dict lookups equals sorting the (key, names)
pairs by key, since `code_to_programs` has pairwise distinct keys. -/
def overlapSection (courses : Courses) (completed_set in_progress_set : List Str)
    (numSlugs : Nat) (c2p : List (Str × List Str)) : List Str :=
  if 2 ≤ numSlugs then
    let overlaps := c2p.filter (fun kn => 2 ≤ kn.2.length)
    if overlaps = [] then []
    else
      [s "\n\n### Cross-Program Overlap\n" ++
        s "These courses count toward multiple programs:\n" ++
        concatStr ((pysort (fun a b => lexLe a.1 b.1) overlaps).map
          (fun kn => overlapLine courses completed_set in_progress_set kn.1 kn.2))]
  else []

/-- The per-course detail block of the Course Details section (emitted only
for inventory entries with a non-empty description). -/
def courseDetail (code : Str) (c : Course) : Str :=
  let units := match c.units with
    | some u => u
    | none => s "?"
  s "\n**" ++ code ++ s " - " ++ c.name ++ s "** (" ++ units ++ s " units)" ++
  (if c.description = [] then [] else s "\n" ++ c.description.take 200) ++
  (if c.details.prerequisites ≠ [] then
     s "\nPrerequisites: " ++ c.details.prerequisites
   else if c.details.terms_offered ≠ [] &&
       containsSub (s "Prerequisite") c.details.terms_offered then
     s "\n" ++ c.details.terms_offered
   else []) ++
  (if c.details.terms_offered ≠ [] &&
      !containsSub (s "Prerequisite") c.details.terms_offered then
     s "\nTerms: " ++ c.details.terms_offered
   else [])

/-- The `for code in mentioned_codes` loop collecting course-detail blocks
and prerequisite warnings, in iteration order. -/
def detailsAndWarnings (courses : Courses) (completed_set in_progress_set : List Str) :
    List Str → List Str × List Str
  | [] => ([], [])
  | code :: rest =>
    let d := match assocFind courses code with
      | some c => if c.description ≠ [] then [courseDetail code c] else []
      | none => []
    let w :=
      if !completed_set.contains code && !in_progress_set.contains code then
        let r := check_prerequisites courses code completed_set in_progress_set
        if r.1 then [] else [r.2]
      else []
    let rec2 := detailsAndWarnings courses completed_set in_progress_set rest
    (d ++ rec2.1, w ++ rec2.2)

/-- The inline detail block for a resolved reference (prerequisite text taken
from the `prerequisites` field or, failing that, from the first of
`terms_offered`/`instructors` containing a `"Prerequisite"` marker). -/
def resolvedDetail (official : Str) (c : Course) : Str :=
  let units := match c.units with
    | some u => u
    | none => s "?"
  s "\n**" ++ official ++ s " - " ++ c.name ++ s "** (" ++ units ++ s " units)" ++
  (if c.description = [] then [] else s "\n" ++ c.description.take 200) ++
  (if c.details.prerequisites ≠ [] then
     s "\nPrerequisites: " ++ c.details.prerequisites
   else if containsSub (s "Prerequisite") c.details.terms_offered then
     s "\n" ++ sliceFrom (s "Prerequisite") c.details.terms_offered
   else if containsSub (s "Prerequisite") c.details.instructors then
     s "\n" ++ sliceFrom (s "Prerequisite") c.details.instructors
   else [])

/-- The Resolved Course References section. -/
def resolvedSection (courses : Courses) (mentioned : List Str)
    (resolved : List (Str × Str)) : List Str :=
  if resolved = [] then []
  else
    [s "\n\n### Resolved Course References:\n" ++
      concatStr (resolved.map (fun io =>
        let c? := assocFind courses io.2
        let nm := match c? with
          | some c => c.name
          | none => []
        (s "- \"" ++ io.1 ++ s "\" → **" ++ io.2 ++ s "**: " ++ nm ++ s "\n") ++
        (if !mentioned.contains io.2 then
           match c? with
           | some c => resolvedDetail io.2 c ++ s "\n"
           | none => []
         else [])))]

/-- The name-search loop: for each query (already capped at three), collect
`- **code**: name` lines for results not yet mentioned, threading the
`mentioned_codes` set. -/
def collectSearchResults (courses : Courses) :
    List Str → List Str → List Str × List Str
  | [], mentioned => ([], mentioned)
  | q :: qs, mentioned =>
    let results := search_courses_by_name courses q 5
    let step := results.foldl
      (fun (acc : List Str × List Str) cn =>
        if acc.2.contains cn.1 then acc
        else (acc.1 ++ [s "- **" ++ cn.1 ++ s "**: " ++ cn.2], acc.2 ++ [cn.1]))
      ([], mentioned)
    let rest := collectSearchResults courses qs step.2
    (step.1 ++ rest.1, rest.2)

/-- `_build_context`: the full context string, or `none` when the unguarded
program lookup would raise. -/
def build_context (programs : Programs) (index : List (Str × List Str))
    (courses : Courses) (message : Str) (completed_set in_progress_set : List Str)
    (history : List (Str × Str)) : Option Str :=
  let relevant_slugs := find_relevant_programs index message history
  if relevant_slugs = [] ∧ programs ≠ [] then
    some (s "\n\nAvailable programs in the catalog:\n" ++
      joinSep (s "\n")
        ((sortStrs (programs.map (fun p => p.2.name))).map (fun nm => s "- " ++ nm)) ++
      s "\n\n(Ask about a specific program for detailed requirements.)")
  else
    match processSlugs programs completed_set in_progress_set relevant_slugs
        [] [] [] with
    | none => none
    | some (parts, mentioned, c2p) =>
      let parts2 := parts ++
        overlapSection courses completed_set in_progress_set
          relevant_slugs.length c2p
      let dw := detailsAndWarnings courses completed_set in_progress_set mentioned
      let parts3 := parts2 ++
        (if dw.1 = [] then []
         else [s "\n### Course Details:\n" ++ joinSep (s "\n") (dw.1.take 25)])
      let parts4 := parts3 ++
        (if dw.2 = [] then []
         else [s "\n\n### Prerequisite Warnings:\n" ++
           joinSep (s "\n") (dw.2.map (fun w => s "- " ++ w))])
      let resolved := resolve_course_reference courses message
      let parts5 := parts4 ++ resolvedSection courses mentioned resolved
      let name_queries := findQuoted message.length message ++ cueCandidates message
      let searched := collectSearchResults courses (name_queries.take 3) mentioned
      let parts6 := parts5 ++
        (if name_queries = [] then []
         else if searched.1 = [] then []
         else [s "\n\n### Course Name Search Results:\n" ++
           joinSep (s "\n") (searched.1.take 10)])
      some (concatStr parts6)

set_option maxRecDepth 8192

/-! ### Claim C8 -/

/-- Claim C8: when a code has no inventory entry, or its prerequisite text is
empty even after the fallback scan of `terms_offered` and `instructors` for a
substring beginning with `"Prerequisite"`, the checker returns
`satisfied = true` with an empty explanation. -/
theorem check_prerequisites_empty_source (courses : Courses) (code : Str)
    (completed_set in_progress_set : List Str)
    (h : assocFind courses code = none ∨
      ∃ c, assocFind courses code = some c ∧ effectivePrereqText c = []) :
    check_prerequisites courses code completed_set in_progress_set = (true, []) := by
  rcases h with h | ⟨c, hc, he⟩
  · unfold check_prerequisites
    rw [h]
  · unfold check_prerequisites
    rw [hc]
    simp [he]

/-- A concrete inventory entry with empty prerequisite text and no fallback
marker, used to witness C8. -/
def c8Course : Course :=
  ⟨s "Calculus I", s "Limits and derivatives", some (s "100"),
    ⟨[], s "Autumn", s "Staff"⟩⟩

/-- Witness for C8 at a concrete course with no prerequisite data. -/
theorem check_prerequisites_empty_source_witness :
    check_prerequisites [(s "MATH 15100", c8Course)] (s "MATH 15100") [] []
      = (true, []) :=
  check_prerequisites_empty_source [(s "MATH 15100", c8Course)] (s "MATH 15100")
    [] [] (Or.inr ⟨c8Course, rfl, rfl⟩)

/-! ### Claim C1 -/

/-- A course whose prerequisite text is exactly `"MATH 15300"`. -/
def c1Course : Course :=
  ⟨s "Test Course", [], none, ⟨s "MATH 15300", [], []⟩⟩

/-- A one-entry inventory holding `c1Course`. -/
def c1Courses : Courses := [(s "TEST 10000", c1Course)]

/-- Claim C1 as stated is false: for a course whose prerequisite text contains
the canonical code `"MATH 15300"`, checking with completed `{}` and
in-progress `{"MATH 15300"}` does return `satisfied = false`, but the
explanation says `"In-progress (not yet satisfied)"` with a capital `I`, so it
does not contain the claimed substring `"in-progress (not yet satisfied)"`. -/
theorem check_prerequisites_in_progress_counterexample :
    (s "MATH 15300") <:+: c1Course.details.prerequisites ∧
    (check_prerequisites c1Courses (s "TEST 10000") [] [s "MATH 15300"]).1 = false ∧
    ¬ ((s "in-progress (not yet satisfied)") <:+:
      (check_prerequisites c1Courses (s "TEST 10000") [] [s "MATH 15300"]).2) := by
  refine ⟨⟨[], [], rfl⟩, by decide, by decide⟩

theorem ip_label_split :
    s "In-progress (not yet satisfied): "
      = s "In-progress (not yet satisfied)" ++ s ": " := rfl

/-- Claim C1 (amended): for every course where `"MATH 15300"` is among the
codes extracted from its (fallback-resolved) prerequisite text, checking with
completed `{}` and in-progress `{"MATH 15300"}` returns `satisfied = false`
with an explanation containing `"In-progress (not yet satisfied)"` (note the
capital `I`; and extraction-membership rather than bare substring
containment, which fails on texts such as `"MATH 153001"`). -/
theorem check_prerequisites_in_progress (courses : Courses) (code : Str)
    (c : Course) (h : assocFind courses code = some c)
    (hmem : s "MATH 15300" ∈ extractPrereqCodes (effectivePrereqText c)) :
    ∃ expl, check_prerequisites courses code [] [s "MATH 15300"] = (false, expl) ∧
      (s "In-progress (not yet satisfied)") <:+: expl := by
  have hpt : ¬ (effectivePrereqText c = []) := by
    intro h0
    rw [h0] at hmem
    simp [extractPrereqCodes, scanPrereqCodes] at hmem
  have hcodes : ¬ (extractPrereqCodes (effectivePrereqText c) = []) :=
    List.ne_nil_of_mem hmem
  have hip : s "MATH 15300" ∈ (extractPrereqCodes (effectivePrereqText c)).filter
      (fun pc => !(List.contains ([] : List Str) pc) &&
        List.contains [s "MATH 15300"] pc) :=
    List.mem_filter.mpr ⟨hmem, by decide⟩
  have hipne : ¬ ((extractPrereqCodes (effectivePrereqText c)).filter
      (fun pc => !(List.contains ([] : List Str) pc) &&
        List.contains [s "MATH 15300"] pc) = []) :=
    List.ne_nil_of_mem hip
  unfold check_prerequisites
  rw [h]
  simp only [if_neg hpt, if_neg hcodes, decide_eq_false hipne, Bool.and_false,
    Bool.false_eq_true, if_false]
  refine ⟨_, rfl, ?_⟩
  by_cases hm : (extractPrereqCodes (effectivePrereqText c)).filter
      (fun pc => !(List.contains ([] : List Str) pc) &&
        !(List.contains [s "MATH 15300"] pc)) = []
  · rw [hm]
    simp only [if_pos rfl, List.nil_append, if_neg hipne, joinSep]
    refine ⟨s "Prereq issue for " ++ code ++ s ": ",
      s ": " ++ joinSep (s ", ") (sortStrs ((extractPrereqCodes
        (effectivePrereqText c)).filter
        (fun pc => !(List.contains ([] : List Str) pc) &&
          List.contains [s "MATH 15300"] pc))), ?_⟩
    rw [ip_label_split]
    simp [List.append_assoc]
  · rw [if_neg hm]
    simp only [if_neg hipne, List.singleton_append, joinSep]
    refine ⟨s "Prereq issue for " ++ code ++ s ": " ++
      (s "Not completed: " ++ joinSep (s ", ") (sortStrs ((extractPrereqCodes
        (effectivePrereqText c)).filter
        (fun pc => !(List.contains ([] : List Str) pc) &&
          !(List.contains [s "MATH 15300"] pc))))) ++ s "; ",
      s ": " ++ joinSep (s ", ") (sortStrs ((extractPrereqCodes
        (effectivePrereqText c)).filter
        (fun pc => !(List.contains ([] : List Str) pc) &&
          List.contains [s "MATH 15300"] pc))), ?_⟩
    rw [ip_label_split]
    simp [List.append_assoc]

/-- Witness for the amended C1 at the concrete course `c1Course`. -/
theorem check_prerequisites_in_progress_witness :
    s "MATH 15300" ∈ extractPrereqCodes (effectivePrereqText c1Course) ∧
    ∃ expl, check_prerequisites c1Courses (s "TEST 10000") [] [s "MATH 15300"]
        = (false, expl) ∧ (s "In-progress (not yet satisfied)") <:+: expl :=
  ⟨by decide, check_prerequisites_in_progress c1Courses (s "TEST 10000")
    c1Course (by decide) (by decide)⟩

theorem mem_of_contains {l : List Str} {x : Str} (h : l.contains x = true) :
    x ∈ l := by simpa using h

theorem contains_of_mem {l : List Str} {x : Str} (h : x ∈ l) :
    l.contains x = true := by simpa using h

theorem mem_dictInsert {α : Type} {m : List (Str × α)} {k : Str} {v : α}
    {kv : Str × α} (h : kv ∈ dictInsert m k v) : kv ∈ m ∨ kv = (k, v) := by
  induction m with
  | nil => simpa [dictInsert] using h
  | cons hd tl ih =>
    obtain ⟨k2, w⟩ := hd
    simp only [dictInsert] at h
    by_cases he : k2 = k
    · rw [if_pos he] at h
      rcases List.mem_cons.mp h with h1 | h1
      · exact Or.inr (by rw [h1, he])
      · exact Or.inl (List.mem_cons_of_mem _ h1)
    · rw [if_neg he] at h
      rcases List.mem_cons.mp h with h1 | h1
      · exact Or.inl (h1 ▸ List.mem_cons_self _ _)
      · rcases ih h1 with h2 | h2
        · exact Or.inl (List.mem_cons_of_mem _ h2)
        · exact Or.inr h2

theorem resolveStep_cases (courses : Courses) (acc : List (Str × Str))
    (m : Str × Str × Str) :
    resolveStep courses acc m = acc ∨
    (resolveStep courses acc m
        = dictInsert acc (m.1 ++ m.2.1 ++ m.2.2) (resolveCandidate m) ∧
      resolveCandidate m ∈ courses.map Prod.fst) := by
  unfold resolveStep
  split
  · exact Or.inl rfl
  · split
    next hg => exact Or.inr ⟨rfl, mem_of_contains hg⟩
    · exact Or.inl rfl

theorem resolve_fold_values (courses : Courses) (ms : List (Str × Str × Str)) :
    ∀ (acc : List (Str × Str)),
      (∀ kv ∈ acc, kv.2 ∈ courses.map Prod.fst) →
      ∀ kv ∈ ms.foldl (resolveStep courses) acc, kv.2 ∈ courses.map Prod.fst := by
  induction ms with
  | nil => intro acc hacc; rw [List.foldl_nil]; exact hacc
  | cons m rest ih =>
    intro acc hacc
    rw [List.foldl_cons]
    apply ih
    intro kv hkv
    rcases resolveStep_cases courses acc m with he | ⟨he, hcand⟩
    · rw [he] at hkv
      exact hacc kv hkv
    · rw [he] at hkv
      rcases mem_dictInsert hkv with h | h
      · exact hacc kv h
      · rw [h]
        exact hcand

/-- Claim C3: every value of the Reference Resolver output is a key of the
course inventory; unresolvable course-code-like text contributes no entry
(and the resolver is a total function of its inputs, so it never raises). -/
theorem resolve_values_in_inventory (courses : Courses) (message : Str)
    (kv : Str × Str) (h : kv ∈ resolve_course_reference courses message) :
    kv.2 ∈ courses.map Prod.fst :=
  resolve_fold_values courses _ []
    (fun kv2 hkv2 => absurd hkv2 (List.not_mem_nil kv2)) kv h

/-- Witness for C3 at a concrete message and one-course inventory (the
resolvable mention `cs143` is emitted, mapped to an inventory key, while the
unresolvable mention `phys999` is silently dropped). -/
theorem resolve_values_in_inventory_witness :
    (s "cs143", s "CMSC 14300") ∈ resolve_course_reference
      [(s "CMSC 14300", c8Course)] (s "i want to take cs143 or phys999") ∧
    s "CMSC 14300" ∈ ([(s "CMSC 14300", c8Course)].map Prod.fst) :=
  ⟨by decide, resolve_values_in_inventory [(s "CMSC 14300", c8Course)]
    (s "i want to take cs143 or phys999") (s "cs143", s "CMSC 14300") (by decide)⟩

theorem insSorted_perm {α : Type} (le : α → α → Bool) (x : α) (l : List α) :
    List.Perm (insSorted le x l) (x :: l) := by
  induction l with
  | nil => simp [insSorted]
  | cons y ys ih =>
    simp only [insSorted]
    split
    · exact List.Perm.refl _
    · exact (ih.cons y).trans (List.Perm.swap x y ys)

theorem pysort_perm {α : Type} (le : α → α → Bool) (l : List α) :
    List.Perm (pysort le l) l := by
  induction l with
  | nil => exact List.Perm.refl _
  | cons x xs ih => exact (insSorted_perm le x (pysort le xs)).trans (ih.cons x)

theorem scoreProgram_zero {kws msg_words : List Str} {msg_lower : Str}
    (h : ∀ kw ∈ kws, msg_words.contains kw = false ∧
      containsSub kw msg_lower = false) :
    scoreProgram kws msg_words msg_lower [] = 0 := by
  unfold scoreProgram
  suffices H : ∀ init : Nat, kws.foldl
      (fun sc kw =>
        if msg_words.contains kw || containsSub kw msg_lower then sc + 2
        else if List.contains [] kw then sc + 1
        else sc) init = init from H 0
  induction kws with
  | nil => intro init; rfl
  | cons kw rest ih =>
    intro init
    rw [List.foldl_cons]
    have h1 := h kw (List.mem_cons_self _ _)
    rw [h1.1, h1.2]
    simpa using ih (fun k hk => h k (List.mem_cons_of_mem _ hk)) init

/-- Claim C5: with empty history, if no keyword of any indexed program is a
whole-word member of the message token set nor a substring of the lowercased
message, the Relevance Resolver returns the empty shortlist; and in general
every slug it returns belongs to an index entry with positive score. -/
theorem rank_zero_overlap (index : List (Str × List Str)) (message : Str)
    (history : List (Str × Str)) :
    ((∀ sk ∈ index, ∀ kw ∈ sk.2,
        (splitWS (lowerStr message)).contains kw = false ∧
        containsSub kw (lowerStr message) = false) →
      find_relevant_programs index message [] = []) ∧
    (∀ slug ∈ find_relevant_programs index message history,
      ∃ sk ∈ index, sk.1 = slug ∧
        0 < scoreProgram sk.2 (splitWS (lowerStr message)) (lowerStr message)
          (userHistWords history)) := by
  constructor
  · intro h
    unfold find_relevant_programs
    have hscored : index.filterMap (fun sk =>
        if 0 < scoreProgram sk.2 (splitWS (lowerStr message)) (lowerStr message)
            (userHistWords []) then
          some (sk.1, scoreProgram sk.2 (splitWS (lowerStr message))
            (lowerStr message) (userHistWords []))
        else none) = [] := by
      rw [List.filterMap_eq_nil_iff]
      intro sk hsk
      have hz : scoreProgram sk.2 (splitWS (lowerStr message)) (lowerStr message)
          (userHistWords []) = 0 := by
        have : userHistWords [] = [] := rfl
        rw [this]
        exact scoreProgram_zero (h sk hsk)
      simp [hz]
    simp only []
    rw [hscored]
    rfl
  · intro slug hslug
    unfold find_relevant_programs at hslug
    simp only [] at hslug
    rw [List.mem_map] at hslug
    obtain ⟨pair, hp, hfst⟩ := hslug
    have hp2 := List.mem_of_mem_take hp
    have hp3 := (pysort_perm _ _).mem_iff.mp hp2
    rw [List.mem_filterMap] at hp3
    obtain ⟨sk, hsk, heq⟩ := hp3
    by_cases hpos : 0 < scoreProgram sk.2 (splitWS (lowerStr message))
        (lowerStr message) (userHistWords history)
    · refine ⟨sk, hsk, ?_, hpos⟩
      simp only [if_pos hpos] at heq
      have hpair := Option.some.inj heq
      rw [← hfst, ← hpair]
    · simp only [if_neg hpos] at heq
      exact Option.noConfusion heq

/-- A one-program map used by witnesses. -/
def mathPrograms : Programs := [(s "mathematics", ⟨s "Mathematics", [], []⟩)]

/-- Witness for C5: a message with no keyword overlap yields an empty
shortlist against the concrete index built from `mathPrograms`. -/
theorem rank_zero_overlap_witness :
    find_relevant_programs (buildKeywordIndex mathPrograms) (s "hello there") []
      = [] :=
  (rank_zero_overlap (buildKeywordIndex mathPrograms) (s "hello there") []).1
    (by decide)

theorem assocFind_isSome_of_mem {α : Type} {m : List (Str × α)} {k : Str}
    (h : k ∈ m.map Prod.fst) : ∃ v, assocFind m k = some v := by
  induction m with
  | nil => simp at h
  | cons hd tl ih =>
    obtain ⟨k2, v⟩ := hd
    by_cases he : k2 = k
    · exact ⟨v, by simp [assocFind, he]⟩
    · have h2 : k ∈ tl.map Prod.fst := by
        rcases List.mem_cons.mp h with h1 | h1
        · exact absurd h1.symm he
        · exact h1
      obtain ⟨v2, hv2⟩ := ih h2
      exact ⟨v2, by simp [assocFind, he, hv2]⟩

theorem processSlugs_isSome (programs : Programs) (comp ip : List Str) :
    ∀ (slugs parts mentioned : List Str) (c2p : List (Str × List Str)),
      (∀ t ∈ slugs, ∃ p, assocFind programs t = some p) →
      ∃ r, processSlugs programs comp ip slugs parts mentioned c2p = some r := by
  intro slugs
  induction slugs with
  | nil => intro parts mentioned c2p _; exact ⟨_, rfl⟩
  | cons slug rest ih =>
    intro parts mentioned c2p h
    obtain ⟨p, hp⟩ := h slug (List.mem_cons_self _ _)
    have := ih (parts ++ [programPart comp ip p]) (List.foldl setAdd mentioned
      (progReqCodes p)) (List.foldl (fun m code => c2pAdd m code p.name)
      c2p (progReqCodes p)) (fun t ht => h t (List.mem_cons_of_mem _ ht))
    obtain ⟨r, hr⟩ := this
    refine ⟨r, ?_⟩
    unfold processSlugs
    rw [hp]
    exact hr

theorem buildKeywordIndex_keys (programs : Programs) :
    (buildKeywordIndex programs).map Prod.fst = programs.map Prod.fst := by
  simp [buildKeywordIndex, List.map_map]

theorem scored_keys_sublist (index : List (Str × List Str)) (mw : List Str)
    (ml : Str) (hw : List Str) :
    List.Sublist
      ((index.filterMap (fun sk =>
        if 0 < scoreProgram sk.2 mw ml hw then
          some (sk.1, scoreProgram sk.2 mw ml hw)
        else none)).map Prod.fst)
      (index.map Prod.fst) := by
  induction index with
  | nil => exact List.Sublist.refl _
  | cons sk rest ih =>
    rw [List.filterMap_cons]
    by_cases hc : 0 < scoreProgram sk.2 mw ml hw
    · rw [if_pos hc]
      simpa using List.Sublist.cons₂ sk.1 ih
    · rw [if_neg hc]
      simpa using List.Sublist.cons sk.1 ih

theorem rank_mem_keys (programs : Programs) (message : Str)
    (history : List (Str × Str)) :
    ∀ slug ∈ find_relevant_programs (buildKeywordIndex programs) message history,
      slug ∈ programs.map Prod.fst := by
  have hkeys := buildKeywordIndex_keys programs
  intro slug hslug
  unfold find_relevant_programs at hslug
  simp only [] at hslug
  rw [List.mem_map] at hslug
  obtain ⟨pair, hp, hfst⟩ := hslug
  have hp2 := (pysort_perm _ _).mem_iff.mp (List.mem_of_mem_take hp)
  rw [List.mem_filterMap] at hp2
  obtain ⟨sk, hsk, heq⟩ := hp2
  by_cases hpos : 0 < scoreProgram sk.2 (splitWS (lowerStr message))
      (lowerStr message) (userHistWords history)
  · simp only [if_pos hpos] at heq
    have hpair := Option.some.inj heq
    have : slug = sk.1 := by rw [← hfst, ← hpair]
    rw [this, ← hkeys]
    exact List.mem_map_of_mem Prod.fst hsk
  · simp only [if_neg hpos] at heq
    exact Option.noConfusion heq

/-- Claim C10: every slug returned by the Relevance Resolver over the index
built from the program map is a key of the program map, the shortlist has no
duplicates and at most 8 entries, and consequently the Context Builder's
unguarded program lookups all succeed (its error branch is unreachable). -/
theorem rank_slugs_safe (programs : Programs) (courses : Courses)
    (message : Str) (completed_set in_progress_set : List Str)
    (history : List (Str × Str))
    (hnd : (programs.map Prod.fst).Nodup) :
    (∀ slug ∈ find_relevant_programs (buildKeywordIndex programs) message history,
      slug ∈ programs.map Prod.fst) ∧
    (find_relevant_programs (buildKeywordIndex programs) message history).Nodup ∧
    (find_relevant_programs (buildKeywordIndex programs) message history).length ≤ 8 ∧
    (build_context programs (buildKeywordIndex programs) courses message
      completed_set in_progress_set history).isSome := by
  have hkeys := buildKeywordIndex_keys programs
  -- the scored association list and its key facts
  have hsub := scored_keys_sublist (buildKeywordIndex programs)
    (splitWS (lowerStr message)) (lowerStr message) (userHistWords history)
  rw [hkeys] at hsub
  have hmem := rank_mem_keys programs message history
  refine ⟨hmem, ?_, ?_, ?_⟩
  · -- Nodup
    unfold find_relevant_programs
    simp only []
    rw [List.map_take]
    have hScoredNd : ((List.filterMap (fun sk =>
        if 0 < scoreProgram sk.2 (splitWS (lowerStr message)) (lowerStr message)
            (userHistWords history) then
          some (sk.1, scoreProgram sk.2 (splitWS (lowerStr message))
            (lowerStr message) (userHistWords history))
        else none) (buildKeywordIndex programs)).map Prod.fst).Nodup :=
      hsub.nodup hnd
    have hPermNd := ((pysort_perm (fun a b => decide (b.2 ≤ a.2)) _).map
      Prod.fst).nodup_iff.mpr hScoredNd
    exact (List.take_sublist 8 _).nodup hPermNd
  · -- length bound
    unfold find_relevant_programs
    simp only []
    rw [List.length_map]
    exact List.length_take_le 8 _
  · -- the Context Builder lookups all succeed
    unfold build_context
    by_cases hempty : find_relevant_programs (buildKeywordIndex programs)
        message history = [] ∧ programs ≠ []
    · rw [if_pos hempty]
      rfl
    · rw [if_neg hempty]
      obtain ⟨r, hr⟩ := processSlugs_isSome programs completed_set in_progress_set
        (find_relevant_programs (buildKeywordIndex programs) message history)
        [] [] [] (fun t ht => assocFind_isSome_of_mem (hmem t ht))
      rcases r with ⟨parts, mentioned, c2p⟩
      rw [hr]
      rfl

/-- Witness for C10 at the concrete one-program map. -/
theorem rank_slugs_safe_witness :
    (∀ slug ∈ find_relevant_programs (buildKeywordIndex mathPrograms)
        (s "i like math") [], slug ∈ mathPrograms.map Prod.fst) ∧
    (find_relevant_programs (buildKeywordIndex mathPrograms)
      (s "i like math") []).Nodup ∧
    (find_relevant_programs (buildKeywordIndex mathPrograms)
      (s "i like math") []).length ≤ 8 ∧
    (build_context mathPrograms (buildKeywordIndex mathPrograms) []
      (s "i like math") [] [] []).isSome :=
  rank_slugs_safe mathPrograms [] (s "i like math") [] [] [] (by decide)

/-- Claim C4: when the Relevance Resolver returns an empty shortlist and the
program map is non-empty, `_build_context` returns exactly the alphabetical
program-name listing with its prompt — an early return, so no requirement
sections, overlap block, prerequisite warnings, course details, reference
resolutions or name-search results are produced. -/
theorem build_context_fallback (programs : Programs)
    (index : List (Str × List Str)) (courses : Courses) (message : Str)
    (completed_set in_progress_set : List Str) (history : List (Str × Str))
    (h1 : find_relevant_programs index message history = [])
    (h2 : programs ≠ []) :
    build_context programs index courses message completed_set in_progress_set
        history
      = some (s "\n\nAvailable programs in the catalog:\n" ++
        joinSep (s "\n") ((sortStrs (programs.map (fun p => p.2.name))).map
          (fun nm => s "- " ++ nm)) ++
        s "\n\n(Ask about a specific program for detailed requirements.)") := by
  unfold build_context
  simp only []
  rw [if_pos ⟨h1, h2⟩]

/-- Witness for C4 at a concrete catalog and keyword-free message. -/
theorem build_context_fallback_witness :
    build_context mathPrograms (buildKeywordIndex mathPrograms) []
        (s "hello there") [] [] []
      = some (s "\n\nAvailable programs in the catalog:\n" ++
        joinSep (s "\n") ((sortStrs (mathPrograms.map (fun p => p.2.name))).map
          (fun nm => s "- " ++ nm)) ++
        s "\n\n(Ask about a specific program for detailed requirements.)") :=
  build_context_fallback mathPrograms (buildKeywordIndex mathPrograms) []
    (s "hello there") [] [] [] (by decide) (by decide)

/-- Claim C9: `_build_context` is modelled as a pure function of the loaded
catalog (program map, keyword index, course inventory) and its per-call
arguments; the method reads only `self.programs`, `self.courses` and
`self._program_keywords`, which are written once at load time, and mutates
none of them, so two invocations with identical inputs produce byte-identical
output. -/
theorem build_context_deterministic (programs : Programs)
    (index : List (Str × List Str)) (courses : Courses) (message : Str)
    (completed_set in_progress_set : List Str) (history : List (Str × Str)) :
    build_context programs index courses message completed_set in_progress_set
        history
      = build_context programs index courses message completed_set
          in_progress_set history := rfl

theorem mem_setAdd {l : List Str} {x y : Str} (h : x ∈ setAdd l y) :
    x ∈ l ∨ x = y := by
  unfold setAdd at h
  split at h
  · exact Or.inl h
  · rcases List.mem_append.mp h with h1 | h1
    · exact Or.inl h1
    · exact Or.inr (List.mem_singleton.mp h1)

theorem self_mem_setAdd (l : List Str) (y : Str) : y ∈ setAdd l y := by
  unfold setAdd
  split
  next hc => exact mem_of_contains hc
  · exact List.mem_append_right _ (List.mem_singleton_self y)

theorem subset_setAdd (l : List Str) (y : Str) : l ⊆ setAdd l y := by
  unfold setAdd
  split
  · exact fun x hx => hx
  · exact fun x hx => List.mem_append_left _ hx

theorem assocFind_mem {α : Type} {m : List (Str × α)} {k : Str} {v : α}
    (h : assocFind m k = some v) : (k, v) ∈ m := by
  induction m with
  | nil => exact Option.noConfusion h
  | cons hd tl ih =>
    obtain ⟨k2, w⟩ := hd
    by_cases he : k2 = k
    · rw [assocFind, if_pos he] at h
      rw [← he, ← Option.some.inj h]
      exact List.mem_cons_self _ _
    · rw [assocFind, if_neg he] at h
      exact List.mem_cons_of_mem _ (ih h)

theorem c2pAdd_find_same (m : List (Str × List Str)) (code nm : Str) :
    ∃ names, assocFind (c2pAdd m code nm) code = some names ∧ nm ∈ names ∧
      ∀ names0, assocFind m code = some names0 → names0 ⊆ names := by
  induction m with
  | nil =>
    refine ⟨[nm], by simp [c2pAdd, assocFind], List.mem_singleton_self nm, ?_⟩
    intro names0 h0
    exact Option.noConfusion h0
  | cons hd tl ih =>
    obtain ⟨k, ns⟩ := hd
    by_cases he : k = code
    · refine ⟨setAdd ns nm, ?_, self_mem_setAdd ns nm, ?_⟩
      · rw [c2pAdd, if_pos he, assocFind, if_pos he]
      · intro names0 h0
        rw [assocFind, if_pos he] at h0
        rw [← Option.some.inj h0]
        exact subset_setAdd ns nm
    · obtain ⟨names, hf, hnm, hsub⟩ := ih
      refine ⟨names, ?_, hnm, ?_⟩
      · rw [c2pAdd, if_neg he, assocFind, if_neg he]
        exact hf
      · intro names0 h0
        rw [assocFind, if_neg he] at h0
        exact hsub names0 h0

theorem c2pAdd_find_other (m : List (Str × List Str)) (code nm code2 : Str)
    (h : ¬ (code2 = code)) :
    assocFind (c2pAdd m code nm) code2 = assocFind m code2 := by
  induction m with
  | nil =>
    have h2 : ¬ (code = code2) := fun he => h he.symm
    simp [c2pAdd, assocFind, h2]
  | cons hd tl ih =>
    obtain ⟨k, ns⟩ := hd
    by_cases he : k = code
    · have hk2 : ¬ (k = code2) := fun h2 => h (h2 ▸ he)
      rw [c2pAdd, if_pos he, assocFind, if_neg hk2, assocFind, if_neg hk2]
    · by_cases hk2 : k = code2
      · rw [c2pAdd, if_neg he, assocFind, if_pos hk2, assocFind, if_pos hk2]
      · rw [c2pAdd, if_neg he, assocFind, if_neg hk2, assocFind, if_neg hk2]
        exact ih

theorem c2pAdd_sound (m : List (Str × List Str)) (code nm code2 : Str)
    (names2 : List Str) (x : Str)
    (hf : assocFind (c2pAdd m code nm) code2 = some names2) (hx : x ∈ names2) :
    (∃ names0, assocFind m code2 = some names0 ∧ x ∈ names0) ∨
      (x = nm ∧ code2 = code) := by
  by_cases he : code2 = code
  · subst he
    induction m with
    | nil =>
      simp [c2pAdd, assocFind] at hf
      rw [← hf] at hx
      exact Or.inr ⟨List.mem_singleton.mp hx, rfl⟩
    | cons hd tl ih =>
      obtain ⟨k, ns⟩ := hd
      by_cases hk : k = code2
      · rw [c2pAdd, if_pos hk, assocFind, if_pos hk] at hf
        rcases mem_setAdd ((Option.some.inj hf) ▸ hx) with h1 | h1
        · exact Or.inl ⟨ns, by rw [assocFind, if_pos hk], h1⟩
        · exact Or.inr ⟨h1, rfl⟩
      · rw [c2pAdd, if_neg hk, assocFind, if_neg hk] at hf
        rcases ih hf with h1 | h1
        · obtain ⟨names0, h2, h3⟩ := h1
          exact Or.inl ⟨names0, by rw [assocFind, if_neg hk]; exact h2, h3⟩
        · exact Or.inr h1
  · rw [c2pAdd_find_other m code nm code2 he] at hf
    exact Or.inl ⟨names2, hf, hx⟩

theorem c2pFold_mono (nm : Str) (codes : List Str) :
    ∀ (m : List (Str × List Str)) (code2 : Str) (names : List Str),
      assocFind m code2 = some names →
      ∃ n2, assocFind (codes.foldl (fun acc c => c2pAdd acc c nm) m) code2
          = some n2 ∧ names ⊆ n2 := by
  induction codes with
  | nil => intro m code2 names h; exact ⟨names, h, fun x hx => hx⟩
  | cons c rest ih =>
    intro m code2 names h
    rw [List.foldl_cons]
    by_cases he : code2 = c
    · subst he
      obtain ⟨n1, hf1, _, hsub1⟩ := c2pAdd_find_same m code2 nm
      obtain ⟨n2, hf2, hsub2⟩ := ih (c2pAdd m code2 nm) code2 n1 hf1
      exact ⟨n2, hf2, fun x hx => hsub2 (hsub1 names h hx)⟩
    · exact ih (c2pAdd m c nm) code2 names
        (by rw [c2pAdd_find_other m c nm code2 he]; exact h)

theorem c2pFold_complete (nm : Str) (codes : List Str) :
    ∀ m, ∀ code ∈ codes,
      ∃ n2, assocFind (codes.foldl (fun acc c => c2pAdd acc c nm) m) code
          = some n2 ∧ nm ∈ n2 := by
  induction codes with
  | nil => intro m code h; cases h
  | cons c rest ih =>
    intro m code h
    rw [List.foldl_cons]
    rcases List.mem_cons.mp h with h1 | h1
    · subst h1
      obtain ⟨n1, hf1, hmem1, _⟩ := c2pAdd_find_same m code nm
      obtain ⟨n2, hf2, hsub2⟩ := c2pFold_mono nm rest (c2pAdd m code nm) code n1 hf1
      exact ⟨n2, hf2, hsub2 hmem1⟩
    · exact ih (c2pAdd m c nm) code h1

theorem c2pFold_sound (nm : Str) (codes : List Str) :
    ∀ m code2 n2 x,
      assocFind (codes.foldl (fun acc c => c2pAdd acc c nm) m) code2 = some n2 →
      x ∈ n2 →
      (∃ n0, assocFind m code2 = some n0 ∧ x ∈ n0) ∨ (x = nm ∧ code2 ∈ codes) := by
  induction codes with
  | nil => intro m code2 n2 x hf hx; exact Or.inl ⟨n2, hf, hx⟩
  | cons c rest ih =>
    intro m code2 n2 x hf hx
    rw [List.foldl_cons] at hf
    rcases ih (c2pAdd m c nm) code2 n2 x hf hx with h1 | h1
    · obtain ⟨n0, hf0, hx0⟩ := h1
      rcases c2pAdd_sound m c nm code2 n0 x hf0 hx0 with h2 | h2
      · exact Or.inl h2
      · exact Or.inr ⟨h2.1, by rw [h2.2]; exact List.mem_cons_self _ _⟩
    · exact Or.inr ⟨h1.1, List.mem_cons_of_mem _ h1.2⟩

theorem processSlugs_c2p_mono (programs : Programs) (comp ip : List Str) :
    ∀ (slugs parts mentioned : List Str) (c2p : List (Str × List Str))
      (r : List Str × List Str × List (Str × List Str)),
      processSlugs programs comp ip slugs parts mentioned c2p = some r →
      ∀ code names, assocFind c2p code = some names →
        ∃ n2, assocFind r.2.2 code = some n2 ∧ names ⊆ n2 := by
  intro slugs
  induction slugs with
  | nil =>
    intro parts mentioned c2p r h code names hf
    rw [← Option.some.inj h]
    exact ⟨names, hf, fun x hx => hx⟩
  | cons slug rest ih =>
    intro parts mentioned c2p r h code names hf
    unfold processSlugs at h
    cases hp : assocFind programs slug with
    | none => rw [hp] at h; exact Option.noConfusion h
    | some p =>
      rw [hp] at h
      obtain ⟨n1, hf1, hsub1⟩ := c2pFold_mono p.name (progReqCodes p) c2p code names hf
      obtain ⟨n2, hf2, hsub2⟩ := ih _ _ _ r h code n1 hf1
      exact ⟨n2, hf2, fun x hx => hsub2 (hsub1 hx)⟩

theorem processSlugs_c2p_complete (programs : Programs) (comp ip : List Str) :
    ∀ (slugs parts mentioned : List Str) (c2p : List (Str × List Str))
      (r : List Str × List Str × List (Str × List Str)),
      processSlugs programs comp ip slugs parts mentioned c2p = some r →
      ∀ slug p, slug ∈ slugs → assocFind programs slug = some p →
        ∀ code ∈ progReqCodes p,
          ∃ n2, assocFind r.2.2 code = some n2 ∧ p.name ∈ n2 := by
  intro slugs
  induction slugs with
  | nil => intro _ _ _ _ _ slug p hmem; cases hmem
  | cons slug rest ih =>
    intro parts mentioned c2p r h slug2 p2 hmem hlook code hcode
    unfold processSlugs at h
    cases hp : assocFind programs slug with
    | none => rw [hp] at h; exact Option.noConfusion h
    | some p =>
      rw [hp] at h
      rcases List.mem_cons.mp hmem with h1 | h1
      · subst h1
        have hpp : p2 = p := Option.some.inj (hlook ▸ hp)
        subst hpp
        obtain ⟨n1, hf1, hmem1⟩ := c2pFold_complete p2.name (progReqCodes p2)
          c2p code hcode
        obtain ⟨n2, hf2, hsub2⟩ := processSlugs_c2p_mono programs comp ip
          rest _ _ _ r h code n1 hf1
        exact ⟨n2, hf2, hsub2 hmem1⟩
      · exact ih _ _ _ r h slug2 p2 h1 hlook code hcode

theorem processSlugs_c2p_sound (programs : Programs) (comp ip : List Str) :
    ∀ (slugs parts mentioned : List Str) (c2p : List (Str × List Str))
      (r : List Str × List Str × List (Str × List Str)),
      processSlugs programs comp ip slugs parts mentioned c2p = some r →
      ∀ code n2 x, assocFind r.2.2 code = some n2 → x ∈ n2 →
        (∃ n0, assocFind c2p code = some n0 ∧ x ∈ n0) ∨
        (∃ slug p, slug ∈ slugs ∧ assocFind programs slug = some p ∧
          p.name = x ∧ code ∈ progReqCodes p) := by
  intro slugs
  induction slugs with
  | nil =>
    intro parts mentioned c2p r h code n2 x hf hx
    rw [← Option.some.inj h] at hf
    exact Or.inl ⟨n2, hf, hx⟩
  | cons slug rest ih =>
    intro parts mentioned c2p r h code n2 x hf hx
    unfold processSlugs at h
    cases hp : assocFind programs slug with
    | none => rw [hp] at h; exact Option.noConfusion h
    | some p =>
      rw [hp] at h
      rcases ih _ _ _ r h code n2 x hf hx with h1 | h1
      · obtain ⟨n0, hf0, hx0⟩ := h1
        rcases c2pFold_sound p.name (progReqCodes p) c2p code n0 x hf0 hx0 with
          h2 | h2
        · exact Or.inl h2
        · exact Or.inr ⟨slug, p, List.mem_cons_self _ _, hp, h2.1.symm, h2.2⟩
      · obtain ⟨slug3, p3, hm3, hl3, hn3, hc3⟩ := h1
        exact Or.inr ⟨slug3, p3, List.mem_cons_of_mem _ hm3, hl3, hn3, hc3⟩

theorem infix_append_before {l m : Str} (pre0 : Str) (h : l <:+: m) :
    l <:+: pre0 ++ m := by
  obtain ⟨t, u, hm⟩ := h
  exact ⟨pre0 ++ t, u, by rw [← hm]; simp [List.append_assoc]⟩

theorem infix_append_after {l m : Str} (suf : Str) (h : l <:+: m) :
    l <:+: m ++ suf := by
  obtain ⟨t, u, hm⟩ := h
  exact ⟨t, u ++ suf, by rw [← hm]; simp [List.append_assoc]⟩

theorem infix_of_mem_concatStr {x : Str} {parts : List Str} (h : x ∈ parts) :
    x <:+: concatStr parts := by
  induction parts with
  | nil => cases h
  | cons y rest ih =>
    rcases List.mem_cons.mp h with h1 | h1
    · subst h1
      exact infix_append_after (concatStr rest) (List.infix_refl x)
    · exact infix_append_before y (ih h1)

theorem two_mem_le_length {l : List Str} {a b : Str} (ha : a ∈ l) (hb : b ∈ l)
    (hab : a ≠ b) : 2 ≤ l.length := by
  cases l with
  | nil => cases ha
  | cons x rest =>
    cases rest with
    | nil =>
      rcases List.mem_singleton.mp ha with rfl
      rcases List.mem_singleton.mp hb with rfl
      exact absurd rfl hab
    | cons y rest2 => simp [List.length_cons]

theorem overlapSection_line (courses : Courses) (comp ip : List Str)
    (numSlugs : Nat) (c2p : List (Str × List Str)) (code : Str)
    (names : List Str) (hn : 2 ≤ numSlugs)
    (hfind : assocFind c2p code = some names) (hlen : 2 ≤ names.length) :
    ∃ block, overlapSection courses comp ip numSlugs c2p = [block] ∧
      (s "### Cross-Program Overlap") <:+: block ∧
      overlapLine courses comp ip code names <:+: block := by
  have hpair : (code, names) ∈ c2p := assocFind_mem hfind
  have hov : (code, names) ∈ c2p.filter (fun kn => 2 ≤ kn.2.length) :=
    List.mem_filter.mpr ⟨hpair, decide_eq_true hlen⟩
  have hne : ¬ (c2p.filter (fun kn => 2 ≤ kn.2.length) = []) :=
    List.ne_nil_of_mem hov
  have hsec : overlapSection courses comp ip numSlugs c2p
      = [s "\n\n### Cross-Program Overlap\n" ++
          s "These courses count toward multiple programs:\n" ++
          concatStr ((pysort (fun a b => lexLe a.1 b.1)
            (c2p.filter (fun kn => 2 ≤ kn.2.length))).map
            (fun kn => overlapLine courses comp ip kn.1 kn.2))] := by
    unfold overlapSection
    rw [if_pos hn, if_neg hne]
  have hline : overlapLine courses comp ip code names ∈
      ((pysort (fun a b => lexLe a.1 b.1)
        (c2p.filter (fun kn => 2 ≤ kn.2.length))).map
        (fun kn => overlapLine courses comp ip kn.1 kn.2)) :=
    List.mem_map_of_mem _ ((pysort_perm _ _).mem_iff.mpr hov)
  refine ⟨_, hsec, ?_, ?_⟩
  · rw [show s "\n\n### Cross-Program Overlap\n"
        = s "\n\n" ++ (s "### Cross-Program Overlap" ++ s "\n") from rfl]
    refine ⟨s "\n\n", s "\n" ++
      s "These courses count toward multiple programs:\n" ++
      concatStr ((pysort (fun a b => lexLe a.1 b.1)
        (c2p.filter (fun kn => 2 ≤ kn.2.length))).map
        (fun kn => overlapLine courses comp ip kn.1 kn.2)), ?_⟩
    simp [List.append_assoc]
  · exact infix_append_before _ (infix_of_mem_concatStr hline)

theorem build_context_main (programs : Programs) (index : List (Str × List Str))
    (courses : Courses) (message : Str) (comp ip : List Str)
    (history : List (Str × Str))
    (hne : ¬ (find_relevant_programs index message history = [] ∧ programs ≠ []))
    (parts mentioned : List Str) (c2p : List (Str × List Str))
    (hr : processSlugs programs comp ip
      (find_relevant_programs index message history) [] [] []
      = some (parts, mentioned, c2p)) :
    ∃ out, build_context programs index courses message comp ip history
        = some out ∧
      ∀ x ∈ parts ++ overlapSection courses comp ip
          (find_relevant_programs index message history).length c2p,
        x <:+: out := by
  unfold build_context
  rw [if_neg hne, hr]
  refine ⟨_, rfl, ?_⟩
  intro x hx
  apply infix_of_mem_concatStr
  exact List.mem_append_left _ (List.mem_append_left _ (List.mem_append_left _
    (List.mem_append_left _ hx)))

/-- Claim C7: whenever at least two programs are ranked (two ranked slugs
resolving to programs with distinct names — the block is keyed by program
name) and some tracked code appears in the requirement sections of both, the
Context Builder output contains a Cross-Program Overlap block whose line for
that code carries the course name from the inventory, the sorted list of the
ranked program names it appears under (characterized exactly by the last two
conjuncts), and its completed/in-progress status marker (all inside
`overlapLine`). -/
theorem cross_program_overlap (programs : Programs) (courses : Courses)
    (message : Str) (completed_set in_progress_set : List Str)
    (history : List (Str × Str)) (s1 s2 code : Str) (p1 p2 : Program)
    (hs1 : s1 ∈ find_relevant_programs (buildKeywordIndex programs) message history)
    (hs2 : s2 ∈ find_relevant_programs (buildKeywordIndex programs) message history)
    (hl1 : assocFind programs s1 = some p1)
    (hl2 : assocFind programs s2 = some p2)
    (hname : p1.name ≠ p2.name)
    (hc1 : code ∈ progReqCodes p1)
    (hc2 : code ∈ progReqCodes p2) :
    ∃ out names,
      build_context programs (buildKeywordIndex programs) courses message
        completed_set in_progress_set history = some out ∧
      (s "### Cross-Program Overlap") <:+: out ∧
      overlapLine courses completed_set in_progress_set code names <:+: out ∧
      p1.name ∈ names ∧ p2.name ∈ names ∧
      (∀ nm ∈ names, ∃ t pt,
        t ∈ find_relevant_programs (buildKeywordIndex programs) message history ∧
        assocFind programs t = some pt ∧ pt.name = nm ∧
        code ∈ progReqCodes pt) ∧
      (∀ t pt,
        t ∈ find_relevant_programs (buildKeywordIndex programs) message history →
        assocFind programs t = some pt → code ∈ progReqCodes pt →
        pt.name ∈ names) := by
  have hmemk := rank_mem_keys programs message history
  have hslugsne : find_relevant_programs (buildKeywordIndex programs) message
      history ≠ [] := List.ne_nil_of_mem hs1
  have hs1s2 : s1 ≠ s2 := by
    intro he
    rw [he, hl2] at hl1
    exact hname (congrArg Program.name (Option.some.inj hl1)).symm
  have hlen2 : 2 ≤ (find_relevant_programs (buildKeywordIndex programs)
      message history).length := two_mem_le_length hs1 hs2 hs1s2
  obtain ⟨r, hr⟩ := processSlugs_isSome programs completed_set in_progress_set
    (find_relevant_programs (buildKeywordIndex programs) message history)
    [] [] [] (fun t ht => assocFind_isSome_of_mem (hmemk t ht))
  rcases r with ⟨parts, mentioned, c2p⟩
  obtain ⟨n1, hf1, hmem1⟩ := processSlugs_c2p_complete programs completed_set
    in_progress_set _ [] [] [] _ hr s1 p1 hs1 hl1 code hc1
  obtain ⟨n2f, hf2, hmem2⟩ := processSlugs_c2p_complete programs completed_set
    in_progress_set _ [] [] [] _ hr s2 p2 hs2 hl2 code hc2
  have hn12 : n2f = n1 := by
    rw [hf1] at hf2
    exact (Option.some.inj hf2).symm
  have hmem2b : p2.name ∈ n1 := hn12 ▸ hmem2
  have hlenN : 2 ≤ n1.length := two_mem_le_length hmem1 hmem2b hname
  obtain ⟨block, hsec, hhdr, hline⟩ := overlapSection_line courses
    completed_set in_progress_set
    (find_relevant_programs (buildKeywordIndex programs) message history).length
    c2p code n1 hlen2 hf1 hlenN
  have hnotempty : ¬ (find_relevant_programs (buildKeywordIndex programs)
      message history = [] ∧ programs ≠ []) := fun hcontra => hslugsne hcontra.1
  obtain ⟨out, hout, hinf⟩ := build_context_main programs
    (buildKeywordIndex programs) courses message completed_set in_progress_set
    history hnotempty parts mentioned c2p hr
  have hblock : block <:+: out := by
    apply hinf
    rw [hsec]
    exact List.mem_append_right _ (List.mem_singleton_self block)
  refine ⟨out, n1, hout, hhdr.trans hblock, hline.trans hblock, hmem1, hmem2b,
    ?_, ?_⟩
  · intro nm hnm
    rcases processSlugs_c2p_sound programs completed_set in_progress_set
        _ [] [] [] _ hr code n1 nm hf1 hnm with h1 | h1
    · obtain ⟨n0, hf0, _⟩ := h1
      exact Option.noConfusion hf0
    · obtain ⟨t, pt, h2, h3, h4, h5⟩ := h1
      exact ⟨t, pt, h2, h3, h4, h5⟩
  · intro t pt ht hlt hct
    obtain ⟨nx, hfx, hmx⟩ := processSlugs_c2p_complete programs completed_set
      in_progress_set _ [] [] [] _ hr t pt ht hlt code hct
    rw [hf1] at hfx
    exact (Option.some.inj hfx) ▸ hmx

/-- A Mathematics program listing MATH 20250, for the C7 witness. -/
def c7p1 : Program :=
  ⟨s "Mathematics", [],
    [⟨[], [⟨s "MATH 20250", s "Abstract Linear Algebra", [], false, false⟩]⟩]⟩

/-- A Statistics program listing MATH 20250, for the C7 witness. -/
def c7p2 : Program :=
  ⟨s "Statistics", [],
    [⟨[], [⟨s "MATH 20250", s "Abstract Linear Algebra", [], false, false⟩]⟩]⟩

/-- A two-program map whose programs share a requirement code. -/
def c7Programs : Programs :=
  [(s "mathematics", c7p1), (s "statistics", c7p2)]

/-- Witness for C7 at the concrete two-program catalog. -/
theorem cross_program_overlap_witness :
    ∃ out names,
      build_context c7Programs (buildKeywordIndex c7Programs) []
        (s "math and stats please") [] [] [] = some out ∧
      (s "### Cross-Program Overlap") <:+: out ∧
      overlapLine [] [] [] (s "MATH 20250") names <:+: out ∧
      c7p1.name ∈ names ∧ c7p2.name ∈ names ∧
      (∀ nm ∈ names, ∃ t pt,
        t ∈ find_relevant_programs (buildKeywordIndex c7Programs)
          (s "math and stats please") [] ∧
        assocFind c7Programs t = some pt ∧ pt.name = nm ∧
        (s "MATH 20250") ∈ progReqCodes pt) ∧
      (∀ t pt,
        t ∈ find_relevant_programs (buildKeywordIndex c7Programs)
          (s "math and stats please") [] →
        assocFind c7Programs t = some pt →
        (s "MATH 20250") ∈ progReqCodes pt → pt.name ∈ names) :=
  cross_program_overlap c7Programs [] (s "math and stats please") [] [] []
    (s "mathematics") (s "statistics") (s "MATH 20250") c7p1 c7p2
    (by decide) (by decide) (by decide) (by decide) (by decide) (by decide)
    (by decide)

theorem word_of_letter {c : Char} (h : isLetter c = true) : isWordChar c = true := by
  simp only [isLetter] at h
  simp [isWordChar, Char.isAlphanum, h]

theorem word_of_digit {c : Char} (h : isDigitChar c = true) : isWordChar c = true := by
  simp only [isDigitChar] at h
  simp [isWordChar, Char.isAlphanum, h]

theorem not_word_not_digit {c : Char} (h : isWordChar c = false) :
    isDigitChar c = false := by
  cases hd : isDigitChar c
  · rfl
  · rw [word_of_digit hd] at h
    exact Bool.noConfusion h

theorem drop_length_takeWhile (p : Char → Bool) (l : Str) :
    l.drop (l.takeWhile p).length = l.dropWhile p := by
  induction l with
  | nil => rfl
  | cons x xs ih =>
    by_cases h : p x
    · simp [List.takeWhile_cons, List.dropWhile_cons, h, ih]
    · simp [List.takeWhile_cons, List.dropWhile_cons, h]

/-- Structural facts `tryRefDigits` guarantees about a successful match. -/
theorem tryRefDigits_some {r di rest : Str}
    (h : tryRefDigits r = some (di, rest)) :
    r = di ++ rest ∧ (∀ c ∈ di, isDigitChar c = true) ∧ 2 ≤ di.length ∧
      di.length ≤ 5 ∧ boundaryOk rest = true := by
  unfold tryRefDigits at h
  simp only [] at h
  split at h
  next hlen =>
    split at h
    next hb =>
      have h1 : di = r.takeWhile isDigitChar ∧ rest = r.drop (r.takeWhile isDigitChar).length := by
        have := Option.some.inj h
        exact ⟨(congrArg Prod.fst this).symm, (congrArg Prod.snd this).symm⟩
      obtain ⟨hdi, hrest⟩ := h1
      simp only [Bool.and_eq_true, decide_eq_true_eq] at hlen
      refine ⟨?_, ?_, ?_, ?_, ?_⟩
      · rw [hdi, hrest, drop_length_takeWhile, List.takeWhile_append_dropWhile]
      · rw [hdi]
        exact fun c hc => List.mem_takeWhile_imp hc
      · rw [hdi]; exact hlen.1
      · rw [hdi]; exact hlen.2
      · rw [hrest]
        exact hb
    · exact Option.noConfusion h
  · exact Option.noConfusion h

/-- Structural facts `tryRefMatch` guarantees about a successful match. -/
theorem tryRefMatch_some {l le sep di rest : Str}
    (h : tryRefMatch l = some (le, sep, di, rest)) :
    l = le ++ sep ++ di ++ rest ∧
    (∀ c ∈ le, isLetter c = true) ∧ 2 ≤ le.length ∧ le.length ≤ 6 ∧
    (sep = [] ∨ ∃ c2, sep = [c2] ∧ (isReWS c2 || c2 = '-') = true) ∧
    (∀ c ∈ di, isDigitChar c = true) ∧ 2 ≤ di.length ∧ di.length ≤ 5 ∧
    boundaryOk rest = true := by
  unfold tryRefMatch at h
  simp only [] at h
  split at h
  next hlen =>
    simp only [Bool.and_eq_true, decide_eq_true_eq] at hlen
    split at h
    · exact Option.noConfusion h
    next c r2 hdrop =>
      split at h
      next hsepc =>
        split at h
        next di0 rest0 hdig =>
          simp only [Option.some.injEq, Prod.mk.injEq] at h
          obtain ⟨he1, he2, he3, he4⟩ := h
          obtain ⟨hr2, hdigall, hdlen1, hdlen2, hbnd⟩ := tryRefDigits_some hdig
          subst he1
          subst he2
          subst he3
          subst he4
          refine ⟨?_, fun c hc => List.mem_takeWhile_imp hc, hlen.1, hlen.2,
            Or.inr ⟨c, rfl, hsepc⟩, hdigall, hdlen1, hdlen2, hbnd⟩
          rw [show (l.takeWhile isLetter) ++ [c] ++ di0 ++ rest0
              = (l.takeWhile isLetter) ++ (c :: (di0 ++ rest0)) by
            simp [List.append_assoc]]
          rw [← hr2, ← hdrop, drop_length_takeWhile,
            List.takeWhile_append_dropWhile]
        · exact Option.noConfusion h
      · split at h
        next di0 rest0 hdig =>
          simp only [Option.some.injEq, Prod.mk.injEq] at h
          obtain ⟨he1, he2, he3, he4⟩ := h
          obtain ⟨hr2, hdigall, hdlen1, hdlen2, hbnd⟩ := tryRefDigits_some hdig
          subst he1
          subst he2
          subst he3
          subst he4
          refine ⟨?_, fun c2 hc => List.mem_takeWhile_imp hc, hlen.1, hlen.2,
            Or.inl rfl, hdigall, hdlen1, hdlen2, hbnd⟩
          rw [List.append_nil]
          rw [show (l.takeWhile isLetter) ++ di0 ++ rest0
              = (l.takeWhile isLetter) ++ (di0 ++ rest0) by
            simp [List.append_assoc]]
          rw [← hr2, ← hdrop, drop_length_takeWhile,
            List.takeWhile_append_dropWhile]
        · exact Option.noConfusion h
  · exact Option.noConfusion h

/-- Computation of `tryRefMatch` at the head occurrence of `cs143` followed by
a word boundary. -/
theorem tryRefMatch_tok (post : Str) (hpost : boundaryOk post = true) :
    tryRefMatch ('c' :: 's' :: '1' :: '4' :: '3' :: post)
      = some (s "cs", [], s "143", post) := by
  have hpw : List.takeWhile isDigitChar post = [] := by
    cases post with
    | nil => rfl
    | cons p ps =>
      have hw : isWordChar p = false := by
        simp only [boundaryOk, Bool.not_eq_true'] at hpost
        exact hpost
      rw [List.takeWhile_cons_of_neg]
      simp [not_word_not_digit hw]
  have htw : List.takeWhile isLetter ('c':: 's':: '1':: '4':: '3'::post)
      = ['c', 's'] := by
    rw [List.takeWhile_cons_of_pos (by decide),
      List.takeWhile_cons_of_pos (by decide),
      List.takeWhile_cons_of_neg (by decide)]
  have hdg : tryRefDigits ('1':: '4':: '3'::post) = some (['1', '4', '3'], post) := by
    have htd : List.takeWhile isDigitChar ('1':: '4':: '3'::post)
        = ['1', '4', '3'] := by
      rw [List.takeWhile_cons_of_pos (by decide),
        List.takeWhile_cons_of_pos (by decide),
        List.takeWhile_cons_of_pos (by decide), hpw]
    unfold tryRefDigits
    simp only [htd]
    rw [if_pos (by decide)]
    show (if boundaryOk post = true then
      some ((['1','4','3'] : Str), post) else none) = some (['1','4','3'], post)
    rw [if_pos hpost]
  unfold tryRefMatch
  simp only [htw]
  rw [if_pos (by decide)]
  show (match ('1':: '4':: '3'::post : Str) with
    | [] => none
    | c :: r2 =>
      if isReWS c || c = '-' then
        match tryRefDigits r2 with
        | some (digits, rest) => some ((['c','s'] : Str), [c], digits, rest)
        | none => none
      else
        match tryRefDigits (c :: r2) with
        | some (digits, rest) => some (['c','s'], [], digits, rest)
        | none => none) = some (s "cs", [], s "143", post)
  show (if (isReWS '1' || decide ('1' = '-')) = true then
      match tryRefDigits ('4':: '3'::post) with
      | some (digits, rest) => some ((['c','s'] : Str), ['1'], digits, rest)
      | none => none
    else
      match tryRefDigits ('1':: '4':: '3'::post) with
      | some (digits, rest) => some (['c','s'], [], digits, rest)
      | none => none) = some (s "cs", [], s "143", post)
  rw [if_neg (by decide), hdg]
  rfl

theorem bool_true_false {b : Bool} (h1 : b = true) (h2 : b = false) : False := by
  rw [h1] at h2
  exact Bool.noConfusion h2

theorem head_digit_contra {di rest post : Str} (hdine : di ≠ [])
    (hdi : ∀ c ∈ di, isDigitChar c = true)
    (htp : s "cs143" ++ post = di ++ rest) : False := by
  cases di with
  | nil => exact hdine rfl
  | cons d0 di2 =>
    rw [show (s "cs143" : Str) = 'c':: 's':: '1':: '4':: '3'::[] from rfl] at htp
    simp only [List.cons_append, List.nil_append] at htp
    have h1 : 'c' = d0 := by injection htp
    have h2 := hdi d0 (List.mem_cons_self _ _)
    rw [← h1] at h2
    exact absurd h2 (by decide)

theorem mem_word_contra {l : Str} {z : Char} (hz : isWordChar z = false)
    (hall : ∀ c ∈ l, isDigitChar c = true) (hm : z ∈ l) : False :=
  bool_true_false (word_of_digit (hall z hm)) hz

/-- A successful pattern match that starts inside `pre0 ++ [z]` (with `z` a
non-word character) cannot extend into the following `cs143` occurrence: the
remainder of the scan still starts with a suffix of `pre0` ending in `z`. -/
theorem match_inside_pre {pre0 post le sep di rest : Str} {z : Char}
    (hz : isWordChar z = false)
    (heq : (pre0 ++ [z]) ++ (s "cs143" ++ post) = ((le ++ sep) ++ di) ++ rest)
    (hle : ∀ c ∈ le, isLetter c = true)
    (hsep : sep = [] ∨ ∃ c2, sep = [c2] ∧ (isReWS c2 || c2 = '-') = true)
    (hdi : ∀ c ∈ di, isDigitChar c = true) (hdine : di ≠ []) :
    ∃ e0, rest = (e0 ++ [z]) ++ (s "cs143" ++ post) := by
  rcases List.append_eq_append_iff.mp heq with ⟨a2, hcons, htp⟩ | ⟨c2, hpre, hrest⟩
  · exfalso
    have hcons2 : le ++ (sep ++ di) = pre0 ++ ([z] ++ a2) := by
      simp only [List.append_assoc] at hcons ⊢
      exact hcons
    rcases List.append_eq_append_iff.mp hcons2 with ⟨x, hpre0, hsd⟩ | ⟨y, hle2, hza⟩
    · rcases hsep with hsep0 | ⟨c2s, hsep1, hsepc⟩
      · rw [hsep0, List.nil_append] at hsd
        refine mem_word_contra hz hdi ?_
        rw [hsd]
        simp
      · rw [hsep1] at hsd
        simp only [List.cons_append, List.nil_append] at hsd
        cases x with
        | nil =>
          simp only [List.nil_append] at hsd
          have hdia : di = a2 := by injection hsd
          exact head_digit_contra hdine hdi (by rw [hdia]; exact htp)
        | cons x0 x1 =>
          simp only [List.cons_append] at hsd
          have hdix : di = x1 ++ (z :: a2) := by injection hsd
          refine mem_word_contra hz hdi ?_
          rw [hdix]
          simp
    · cases y with
      | nil =>
        simp only [List.nil_append] at hza
        rcases hsep with hsep0 | ⟨c2s, hsep1, _⟩
        · rw [hsep0, List.nil_append] at hza
          refine mem_word_contra hz hdi ?_
          rw [← hza]
          simp
        · rw [hsep1] at hza
          simp only [List.cons_append, List.nil_append] at hza
          have hdia : a2 = di := by injection hza
          exact head_digit_contra hdine hdi (by rw [← hdia]; exact htp)
      | cons y0 y1 =>
        simp only [List.cons_append, List.nil_append] at hza
        have hzy : z = y0 := by injection hza
        have hymem : y0 ∈ le := by
          rw [hle2]
          simp
        exact bool_true_false (word_of_letter (hle y0 hymem)) (hzy ▸ hz)
  · rcases List.eq_nil_or_concat c2 with hc2 | ⟨c20, c2l, hc2⟩
    · exfalso
      rw [hc2, List.append_nil] at hpre
      rcases List.eq_nil_or_concat di with hdi0 | ⟨di0, dl, hdi1⟩
      · exact hdine hdi0
      · rw [List.concat_eq_append] at hdi1
        have hlast : some z = some dl := by
          calc some z = (pre0 ++ [z]).getLast? := (List.getLast?_concat pre0).symm
            _ = ((le ++ sep) ++ di).getLast? := by rw [hpre]
            _ = (((le ++ sep) ++ di0) ++ [dl]).getLast? := by
                rw [hdi1]
                simp [List.append_assoc]
            _ = some dl := List.getLast?_concat _
        have hzdl : z = dl := Option.some.inj hlast
        refine mem_word_contra hz hdi ?_
        rw [hzdl, hdi1]
        simp
    · rw [List.concat_eq_append] at hc2
      have hlast : some z = some c2l := by
        calc some z = (pre0 ++ [z]).getLast? := (List.getLast?_concat pre0).symm
          _ = (((le ++ sep) ++ di) ++ c2).getLast? := by rw [hpre]
          _ = ((((le ++ sep) ++ di) ++ c20) ++ [c2l]).getLast? := by
              rw [hc2]
              simp [List.append_assoc]
          _ = some c2l := List.getLast?_concat _
      have hzc : z = c2l := Option.some.inj hlast
      refine ⟨c20, ?_⟩
      rw [hrest, hc2, hzc]

theorem snoc_tail {p : Char} {pre2 : Str}
    (h : ∃ pre0 z, p :: pre2 = pre0 ++ [z] ∧ isWordChar z = false) :
    (pre2 = [] → isWordChar p = false) ∧
    (pre2 = [] ∨ ∃ pre0 z, pre2 = pre0 ++ [z] ∧ isWordChar z = false) := by
  obtain ⟨pre0, z, heq, hzw⟩ := h
  cases pre0 with
  | nil =>
    simp only [List.nil_append] at heq
    injection heq with h1 h2
    exact ⟨fun _ => h1 ▸ hzw, Or.inl h2⟩
  | cons q pre0t =>
    simp only [List.cons_append] at heq
    injection heq with h1 h2
    constructor
    · intro hnil
      rw [hnil] at h2
      exact absurd h2.symm (by simp)
    · exact Or.inr ⟨pre0t, z, h2, hzw⟩

/-- Completeness of the reference scan at a word-boundary-delimited `cs143`
occurrence: the match `("cs", "", "143")` is always emitted. -/
theorem scan_complete_cs143 (post : Str) (hpost : boundaryOk post = true) :
    ∀ (fuel : Nat) (pre : Str) (prevW : Bool),
      (pre ++ (s "cs143" ++ post)).length ≤ fuel →
      (pre = [] → prevW = false) →
      (pre = [] ∨ ∃ pre0 z, pre = pre0 ++ [z] ∧ isWordChar z = false) →
      (s "cs", ([] : Str), s "143") ∈
        scanRefMatches fuel prevW (pre ++ (s "cs143" ++ post)) := by
  intro fuel
  induction fuel with
  | zero =>
    intro pre prevW hlen _ _
    exfalso
    have h5 : (s "cs143").length = 5 := rfl
    simp only [List.length_append, h5, Nat.le_zero] at hlen
    omega
  | succ fuel ih =>
    intro pre prevW hlen hne hsnoc
    cases pre with
    | nil =>
      have hp : prevW = false := hne rfl
      subst hp
      show (s "cs", ([] : Str), s "143") ∈
        scanRefMatches (fuel + 1) false ('c':: 's':: '1':: '4':: '3'::post)
      simp only [scanRefMatches, Bool.not_false, if_true]
      rw [tryRefMatch_tok post hpost]
      exact List.mem_cons_self _ _
    | cons p pre2 =>
      rcases hsnoc with hcontra | hsnoc2
      · exact absurd hcontra (by simp)
      have hst := snoc_tail hsnoc2
      show (s "cs", ([] : Str), s "143") ∈
        scanRefMatches (fuel + 1) prevW (p :: (pre2 ++ (s "cs143" ++ post)))
      have hlen2 : (pre2 ++ (s "cs143" ++ post)).length ≤ fuel := by
        simp only [List.cons_append, List.length_cons] at hlen
        omega
      cases hw : prevW with
      | true =>
        simp only [scanRefMatches, Bool.not_true, if_false]
        exact ih pre2 (isWordChar p) hlen2 hst.1 hst.2
      | false =>
        simp only [scanRefMatches, Bool.not_false, if_true]
        cases hm : tryRefMatch (p :: (pre2 ++ (s "cs143" ++ post))) with
        | none => exact ih pre2 (isWordChar p) hlen2 hst.1 hst.2
        | some q =>
          obtain ⟨le, sep, di, rest⟩ := q
          obtain ⟨heq, hle, hle2, _, hsep, hdi, hdi2, _, _⟩ := tryRefMatch_some hm
          obtain ⟨pre0, z, hpz, hzw⟩ := hsnoc2
          have heq2 : (pre0 ++ [z]) ++ (s "cs143" ++ post)
              = ((le ++ sep) ++ di) ++ rest := by
            rw [← hpz]
            rw [show ((p :: pre2) ++ (s "cs143" ++ post) : Str)
              = p :: (pre2 ++ (s "cs143" ++ post)) from rfl]
            exact heq
          have hdine : di ≠ [] := by
            intro h0
            rw [h0] at hdi2
            simp at hdi2
          obtain ⟨e0, hrest⟩ := match_inside_pre hzw heq2 hle hsep hdi hdine
          apply List.mem_cons_of_mem
          have h5 : (s "cs143").length = 5 := rfl
          have hrlen : rest.length ≤ fuel := by
            have hlentot := congrArg List.length heq2
            simp only [List.length_append, List.length_cons, List.length_nil,
              List.length_singleton, h5] at hlentot
            have hplen := congrArg List.length hpz
            simp only [List.length_cons, List.length_append, List.length_nil,
              List.length_singleton] at hplen
            simp only [List.cons_append, List.length_cons, List.length_append,
              List.length_nil, h5] at hlen
            omega
          have hshape : rest = (e0 ++ [z]) ++ (s "cs143" ++ post) := hrest
          rw [hshape]
          apply ih (e0 ++ [z]) true
          · rw [← hshape]
            exact hrlen
          · intro hcontra
            exact absurd hcontra (by simp)
          · exact Or.inr ⟨e0, z, rfl, hzw⟩

/-- Every match the scanner emits has all-letter groups of length at least 2,
an optional whitespace/hyphen separator, and a non-empty all-digit group. -/
theorem scanRefMatches_good :
    ∀ (fuel : Nat) (prevW : Bool) (l : Str) (m : Str × Str × Str),
      m ∈ scanRefMatches fuel prevW l →
      (∀ c ∈ m.1, isLetter c = true) ∧ 2 ≤ m.1.length ∧
      (m.2.1 = [] ∨ ∃ c2, m.2.1 = [c2] ∧ (isReWS c2 || c2 = '-') = true) ∧
      (∀ c ∈ m.2.2, isDigitChar c = true) ∧ m.2.2 ≠ [] := by
  intro fuel
  induction fuel with
  | zero => intro _ _ _ h; cases h
  | succ fuel ih =>
    intro prevW l m hm
    cases l with
    | nil => cases hm
    | cons c cs =>
      simp only [scanRefMatches] at hm
      by_cases hw : (!prevW) = true
      · rw [if_pos hw] at hm
        cases htry : tryRefMatch (c :: cs) with
        | none => rw [htry] at hm; exact ih _ _ m hm
        | some q =>
          obtain ⟨le, sep, di, rest⟩ := q
          rw [htry] at hm
          rcases List.mem_cons.mp hm with h1 | h1
          · obtain ⟨_, hle, hle2, _, hsep, hdi, hdi2, _, _⟩ :=
              tryRefMatch_some htry
            subst h1
            refine ⟨hle, hle2, hsep, hdi, ?_⟩
            intro h0
            have h0b : di = [] := h0
            rw [h0b] at hdi2
            simp at hdi2
          · exact ih _ _ m h1
      · rw [if_neg hw] at hm
        exact ih _ _ m hm

/-- Decomposition of a good match whose full text is exactly `cs143`. -/
theorem good_orig_cs143 {le sep di : Str}
    (hle : ∀ c ∈ le, isLetter c = true) (hle2 : 2 ≤ le.length)
    (hsep : sep = [] ∨ ∃ c2, sep = [c2] ∧ (isReWS c2 || c2 = '-') = true)
    (hdi : ∀ c ∈ di, isDigitChar c = true) (hdine : di ≠ [])
    (heq : le ++ sep ++ di = s "cs143") :
    le = s "cs" ∧ sep = [] ∧ di = s "143" := by
  cases le with
  | nil => simp at hle2
  | cons a le1 =>
    cases le1 with
    | nil => simp at hle2
    | cons b le2 =>
      rw [show (s "cs143" : Str) = 'c':: 's':: '1':: '4':: '3'::[] from rfl] at heq
      simp only [List.cons_append, List.append_assoc] at heq
      injection heq with ha heq1
      injection heq1 with hb heq2
      subst ha
      subst hb
      cases le2 with
      | nil =>
        simp only [List.nil_append] at heq2
        rcases hsep with hsep0 | ⟨c2, hsep1, hsepc⟩
        · rw [hsep0, List.nil_append] at heq2
          exact ⟨rfl, hsep0, by rw [heq2]; rfl⟩
        · rw [hsep1] at heq2
          simp only [List.cons_append] at heq2
          injection heq2 with hc _
          exact absurd hsepc (by rw [hc]; decide)
      | cons e le3 =>
        simp only [List.cons_append] at heq2
        injection heq2 with he _
        have h2 := hle e (by simp)
        rw [he] at h2
        exact absurd h2 (by decide)

/-- Decomposition of a good match whose full text is exactly `CMSC 14300`. -/
theorem good_orig_cmsc {le sep di : Str}
    (hle : ∀ c ∈ le, isLetter c = true) (hle2 : 2 ≤ le.length)
    (hsep : sep = [] ∨ ∃ c2, sep = [c2] ∧ (isReWS c2 || c2 = '-') = true)
    (hdi : ∀ c ∈ di, isDigitChar c = true) (hdine : di ≠ [])
    (heq : le ++ sep ++ di = s "CMSC 14300") :
    le = s "CMSC" ∧ di.length = 5 := by
  cases le with
  | nil => simp at hle2
  | cons a le1 =>
    cases le1 with
    | nil => simp at hle2
    | cons b le2 =>
      rw [show (s "CMSC 14300" : Str)
        = 'C':: 'M':: 'S':: 'C':: ' ':: '1':: '4':: '3':: '0':: '0'::[] from rfl] at heq
      simp only [List.cons_append, List.append_assoc] at heq
      injection heq with ha heq1
      injection heq1 with hb heq2
      subst ha
      subst hb
      cases le2 with
      | nil =>
        simp only [List.nil_append] at heq2
        rcases hsep with hsep0 | ⟨c2, hsep1, hsepc⟩
        · rw [hsep0, List.nil_append] at heq2
          cases di with
          | nil => exact absurd rfl hdine
          | cons d0 di2 =>
            injection heq2 with hd _
            have h2 := hdi d0 (by simp)
            rw [hd] at h2
            exact absurd h2 (by decide)
        · rw [hsep1] at heq2
          simp only [List.cons_append] at heq2
          injection heq2 with hc _
          exact absurd hsepc (by rw [hc]; decide)
      | cons e le3 =>
        simp only [List.cons_append] at heq2
        injection heq2 with he heq3
        have hel := hle e (by simp)
        cases le3 with
        | nil =>
          simp only [List.nil_append] at heq3
          rcases hsep with hsep0 | ⟨c2, hsep1, hsepc⟩
          · rw [hsep0, List.nil_append] at heq3
            cases di with
            | nil => exact absurd rfl hdine
            | cons d0 di2 =>
              injection heq3 with hd _
              have h2 := hdi d0 (by simp)
              rw [hd] at h2
              exact absurd h2 (by decide)
          · rw [hsep1] at heq3
            simp only [List.cons_append] at heq3
            injection heq3 with hc _
            exact absurd hsepc (by rw [hc]; decide)
        | cons f le4 =>
          simp only [List.cons_append] at heq3
          injection heq3 with hf heq4
          cases le4 with
          | nil =>
            simp only [List.nil_append] at heq4
            rcases hsep with hsep0 | ⟨c2, hsep1, hsepc⟩
            · rw [hsep0, List.nil_append] at heq4
              cases di with
              | nil => exact absurd rfl hdine
              | cons d0 di2 =>
                injection heq4 with hd _
                have h2 := hdi d0 (by simp)
                rw [hd] at h2
                exact absurd h2 (by decide)
            · rw [hsep1] at heq4
              simp only [List.cons_append, List.nil_append] at heq4
              injection heq4 with hc heq5
              subst he
              subst hf
              constructor
              · rfl
              · rw [heq5]
                rfl
          | cons g le5 =>
            simp only [List.cons_append] at heq4
            injection heq4 with hg _
            have h2 := hle g (by simp)
            rw [hg] at h2
            exact absurd h2 (by decide)

theorem key_mem_dictInsert {α : Type} (m : List (Str × α)) (k : Str) (v : α) :
    k ∈ (dictInsert m k v).map Prod.fst := by
  induction m with
  | nil => exact List.mem_cons_self k []
  | cons hd tl ih =>
    obtain ⟨k2, w⟩ := hd
    by_cases he : k2 = k
    · rw [dictInsert, if_pos he]
      exact List.mem_cons.mpr (Or.inl he.symm)
    · rw [dictInsert, if_neg he]
      exact List.mem_cons_of_mem _ ih

theorem keys_mono_dictInsert {α : Type} {m : List (Str × α)} {k2 : Str}
    (k : Str) (v : α) (h : k2 ∈ m.map Prod.fst) :
    k2 ∈ (dictInsert m k v).map Prod.fst := by
  induction m with
  | nil => cases h
  | cons hd tl ih =>
    obtain ⟨k3, w⟩ := hd
    rcases List.mem_cons.mp h with h1 | h1
    · by_cases he : k3 = k
      · rw [dictInsert, if_pos he]
        exact List.mem_cons.mpr (Or.inl h1)
      · rw [dictInsert, if_neg he]
        exact List.mem_cons.mpr (Or.inl h1)
    · by_cases he : k3 = k
      · rw [dictInsert, if_pos he]
        exact List.mem_cons.mpr (Or.inr h1)
      · rw [dictInsert, if_neg he]
        exact List.mem_cons.mpr (Or.inr (ih h1))

/-- `resolveStep` on the match `("cs", "", "143")` inserts the resolved
binding when `CMSC 14300` is in the inventory. -/
theorem resolveStep_target (courses : Courses) (acc : List (Str × Str))
    (hc : s "CMSC 14300" ∈ courses.map Prod.fst) :
    resolveStep courses acc (s "cs", [], s "143")
      = dictInsert acc (s "cs143") (s "CMSC 14300") := by
  unfold resolveStep
  have h1 : (decide (((s "cs", ([] : Str), s "143") : Str × Str × Str).2.2.length
      = 5)) = false := by decide
  rw [if_neg (by rw [h1, Bool.false_and]; exact Bool.false_ne_true)]
  rw [show resolveCandidate (s "cs", [], s "143") = s "CMSC 14300" from by decide]
  rw [if_pos (contains_of_mem hc)]
  rfl

/-- When the digits have length 5 and the department is known, the match is
skipped. -/
theorem resolveStep_skip (courses : Courses) (acc : List (Str × Str))
    (m : Str × Str × Str) (h5 : m.2.2.length = 5)
    (hdept : (deptSet courses).contains (upperStr (lowerStr m.1)) = true) :
    resolveStep courses acc m = acc := by
  unfold resolveStep
  have hcond : (decide (m.2.2.length = 5) &&
      (deptSet courses).contains (upperStr (lowerStr m.1))) = true := by
    rw [h5, hdept]
    simp
  rw [if_pos hcond]

theorem cmsc_in_deptSet (courses : Courses)
    (hc : s "CMSC 14300" ∈ courses.map Prod.fst) :
    (deptSet courses).contains (s "CMSC") = true := by
  apply contains_of_mem
  rw [List.mem_map] at hc
  obtain ⟨pair, hp, hfst⟩ := hc
  unfold deptSet
  rw [List.mem_filterMap]
  refine ⟨pair, hp, ?_⟩
  rw [hfst]
  decide

theorem resolve_fold_keys_mono (courses : Courses)
    (ms : List (Str × Str × Str)) :
    ∀ (acc : List (Str × Str)) (k : Str), k ∈ acc.map Prod.fst →
      k ∈ (ms.foldl (resolveStep courses) acc).map Prod.fst := by
  induction ms with
  | nil => intro acc k h; exact h
  | cons m rest ih =>
    intro acc k h
    rw [List.foldl_cons]
    apply ih
    rcases resolveStep_cases courses acc m with he | ⟨he, _⟩
    · rw [he]; exact h
    · rw [he]; exact keys_mono_dictInsert _ _ h

theorem resolve_fold_target_key (courses : Courses)
    (hc : s "CMSC 14300" ∈ courses.map Prod.fst)
    (ms : List (Str × Str × Str)) :
    ∀ (acc : List (Str × Str)), (s "cs", ([] : Str), s "143") ∈ ms →
      s "cs143" ∈ (ms.foldl (resolveStep courses) acc).map Prod.fst := by
  induction ms with
  | nil => intro acc h; cases h
  | cons m rest ih =>
    intro acc h
    rw [List.foldl_cons]
    rcases List.mem_cons.mp h with h1 | h1
    · rw [← h1, resolveStep_target courses acc hc]
      exact resolve_fold_keys_mono courses rest _ _ (key_mem_dictInsert acc _ _)
    · exact ih _ h1

theorem resolve_fold_cs143_val (courses : Courses)
    (ms : List (Str × Str × Str))
    (hgood : ∀ m ∈ ms, (∀ c ∈ m.1, isLetter c = true) ∧ 2 ≤ m.1.length ∧
      (m.2.1 = [] ∨ ∃ c2, m.2.1 = [c2] ∧ (isReWS c2 || c2 = '-') = true) ∧
      (∀ c ∈ m.2.2, isDigitChar c = true) ∧ m.2.2 ≠ []) :
    ∀ (acc : List (Str × Str)),
      (∀ kv ∈ acc, kv.1 = s "cs143" → kv.2 = s "CMSC 14300") →
      ∀ kv ∈ ms.foldl (resolveStep courses) acc,
        kv.1 = s "cs143" → kv.2 = s "CMSC 14300" := by
  induction ms with
  | nil => intro acc hacc; rw [List.foldl_nil]; exact hacc
  | cons m rest ih =>
    intro acc hacc
    rw [List.foldl_cons]
    apply ih (fun m2 hm2 => hgood m2 (List.mem_cons_of_mem _ hm2))
    intro kv hkv hk
    rcases resolveStep_cases courses acc m with he | ⟨he, _⟩
    · rw [he] at hkv
      exact hacc kv hkv hk
    · rw [he] at hkv
      rcases mem_dictInsert hkv with h1 | h1
      · exact hacc kv h1 hk
      · obtain ⟨hle, hle2, hsep, hdi, hdine⟩ := hgood m (List.mem_cons_self _ _)
        rw [h1] at hk
        obtain ⟨hlecs, hsepnil, hdics⟩ := good_orig_cs143 hle hle2 hsep hdi hdine hk
        have hm : m = (s "cs", ([] : Str), s "143") := by
          obtain ⟨m1, m2, m3⟩ := m
          simp only [Prod.mk.injEq]
          exact ⟨hlecs, hsepnil, hdics⟩
        rw [h1, hm]
        rw [show resolveCandidate (s "cs", [], s "143") = s "CMSC 14300"
          from by decide]

theorem assocFind_of_key_val {m : List (Str × Str)} {k v : Str}
    (hk : k ∈ m.map Prod.fst)
    (hv : ∀ kv ∈ m, kv.1 = k → kv.2 = v) : assocFind m k = some v := by
  induction m with
  | nil => cases hk
  | cons hd tl ih =>
    obtain ⟨k2, w⟩ := hd
    by_cases he : k2 = k
    · rw [assocFind, if_pos he]
      exact congrArg some (hv (k2, w) (List.mem_cons_self _ _) he)
    · rw [assocFind, if_neg he]
      apply ih
      · rcases List.mem_cons.mp hk with h1 | h1
        · exact absurd h1.symm he
        · exact h1
      · exact fun kv hkv => hv kv (List.mem_cons_of_mem _ hkv)

theorem resolve_fold_no_cmsc (courses : Courses)
    (hc : s "CMSC 14300" ∈ courses.map Prod.fst)
    (ms : List (Str × Str × Str))
    (hgood : ∀ m ∈ ms, (∀ c ∈ m.1, isLetter c = true) ∧ 2 ≤ m.1.length ∧
      (m.2.1 = [] ∨ ∃ c2, m.2.1 = [c2] ∧ (isReWS c2 || c2 = '-') = true) ∧
      (∀ c ∈ m.2.2, isDigitChar c = true) ∧ m.2.2 ≠ []) :
    ∀ (acc : List (Str × Str)),
      (∀ kv ∈ acc, kv.1 ≠ s "CMSC 14300") →
      ∀ kv ∈ ms.foldl (resolveStep courses) acc, kv.1 ≠ s "CMSC 14300" := by
  induction ms with
  | nil => intro acc hacc; rw [List.foldl_nil]; exact hacc
  | cons m rest ih =>
    intro acc hacc
    rw [List.foldl_cons]
    apply ih (fun m2 hm2 => hgood m2 (List.mem_cons_of_mem _ hm2))
    intro kv hkv
    by_cases horig : m.1 ++ m.2.1 ++ m.2.2 = s "CMSC 14300"
    · obtain ⟨hle, hle2, hsep, hdi, hdine⟩ := hgood m (List.mem_cons_self _ _)
      obtain ⟨hlec, hdilen⟩ := good_orig_cmsc hle hle2 hsep hdi hdine horig
      rw [resolveStep_skip courses acc m hdilen
        (by rw [hlec, show upperStr (lowerStr (s "CMSC")) = s "CMSC" from by decide]
            exact cmsc_in_deptSet courses hc)] at hkv
      exact hacc kv hkv
    · rcases resolveStep_cases courses acc m with he | ⟨he, _⟩
      · rw [he] at hkv
        exact hacc kv hkv
      · rw [he] at hkv
        rcases mem_dictInsert hkv with h1 | h1
        · exact hacc kv h1
        · intro hkcm
          rw [h1] at hkcm
          exact horig hkcm

/-- Claim C2: for a message containing `cs143` delimited by word boundaries
and an inventory containing `CMSC 14300`, the Reference Resolver maps
`"cs143"` to `"CMSC 14300"` (department abbreviation through the table,
digits right-padded with zeros to five); and no message ever produces a
mapping keyed by the already-canonical literal `"CMSC 14300"` (five digits
with a known department are skipped). -/
theorem resolve_cs143 (courses : Courses)
    (hc : s "CMSC 14300" ∈ courses.map Prod.fst) :
    (∀ pre post : Str,
      (pre = [] ∨ ∃ pre0 z, pre = pre0 ++ [z] ∧ isWordChar z = false) →
      boundaryOk post = true →
      assocFind (resolve_course_reference courses (pre ++ (s "cs143" ++ post)))
        (s "cs143") = some (s "CMSC 14300")) ∧
    (∀ message kv, kv ∈ resolve_course_reference courses message →
      kv.1 ≠ s "CMSC 14300") := by
  constructor
  · intro pre post hpre hpost
    have hscan := scan_complete_cs143 post hpost
      (pre ++ (s "cs143" ++ post)).length pre false (Nat.le_refl _)
      (fun _ => rfl) hpre
    unfold resolve_course_reference
    apply assocFind_of_key_val
    · exact resolve_fold_target_key courses hc _ [] hscan
    · apply resolve_fold_cs143_val courses _
        (fun m hm => scanRefMatches_good _ _ _ m hm)
      intro kv hkv
      cases hkv
  · intro message kv hkv
    refine resolve_fold_no_cmsc courses hc _
      (fun m hm => scanRefMatches_good _ _ _ m hm) [] ?_ kv hkv
    intro kv2 hkv2
    cases hkv2

/-- Witness for C2 at a concrete message and one-course inventory. -/
theorem resolve_cs143_witness :
    assocFind (resolve_course_reference [(s "CMSC 14300", c8Course)]
        (s "take " ++ (s "cs143" ++ s "!"))) (s "cs143")
      = some (s "CMSC 14300") :=
  (resolve_cs143 [(s "CMSC 14300", c8Course)] (by decide)).1 (s "take ") (s "!")
    (Or.inr ⟨s "take", ' ', by decide, by decide⟩) (by decide)

end Advisor
